import Mathlib

/-!
Verification of the bipartite maximum-matching engine of scheduling.py
(class Employee and class EmployeeCustomerMatcher).

The Python code is embedded shallowly:

* Employee objects become a structure; the mutable assigned_customer field
  is threaded explicitly.
* The defaultdict(list) residual graph becomes a function Nat -> List Nat;
  node 0 is the source, nodes 1..N are the employees (1-based as in the
  Python enumerate(..., 1)), nodes N+1..N+M are the customers, node
  N+M+1 is the sink, matching _build_graph / match_customers exactly.
* Each Python while-loop is modelled with an explicit fuel parameter; a
  fuel value sufficient for every input is supplied at the call site and
  proved sufficient.  Running out of fuel, a failing list.remove (Python
  ValueError), a missing parent entry (Python KeyError) and an
  out-of-range customers[...] access (Python IndexError) are all modelled
  as the Option value none, so totality of the model states that the
  Python code raises no exception.
* The parent dictionary of _bfs is rebuilt on every call.  This is
  faithful: the walks in match_customers only read parent entries that
  lie on the chain from the sink to the source, and every entry on that
  chain was written during the bfs call that just returned true (each
  node on the chain was first visited in that round).  The sentinel
  parent[source] = -1 is never read, because both walks stop as soon as
  the node 0 is reached, so the entry is omitted.
-/

/-- Employee, scheduling.py lines 3-20.  The fields name, available and
allowed_customers are set at construction and never mutated by the
matcher; assigned_customer is the mutable assignment field. -/
structure Employee where
  name : String
  available : Bool
  allowed_customers : List String
  assigned_customer : Option String
deriving DecidableEq, Repr

/-- Employee.can_serve, scheduling.py lines 10-11.  Note that the code
checks membership in allowed_customers and absence of an assignment, but
not the available flag. -/
def Employee.can_serve (e : Employee) (c : String) : Bool :=
  e.allowed_customers.contains c && e.assigned_customer == none

/-- Employee.assign_customer, scheduling.py lines 13-17: mutates the
employee when can_serve holds and reports success as a Bool. -/
def Employee.assign_customer (e : Employee) (c : String) : Employee × Bool :=
  if e.can_serve c then ({ e with assigned_customer := some c }, true) else (e, false)

/-- Employee.clear_assignment, scheduling.py lines 19-20. -/
def Employee.clear_assignment (e : Employee) : Employee :=
  { e with assigned_customer := none }

/-- Graph rows: adjacency lists of the defaultdict(list) graph.  A node
that is not a key of the Python dict has the empty row. -/
def Graph : Type := Nat → List Nat

/-- graph[u].append(v), scheduling.py lines 38, 45, 86, 103. -/
def gAppend (g : Graph) (u v : Nat) : Graph :=
  fun x => if x = u then g u ++ [v] else g x

/-- graph[u].remove(v) after the presence of v has been checked,
scheduling.py line 102: removes the first occurrence. -/
def gErase (g : Graph) (u v : Nat) : Graph :=
  fun x => if x = u then (g u).erase v else g x

/-- Edges appended to graph[0], scheduling.py lines 36-38: one edge
0 -> i for each available employee, i counting from the given start. -/
def srcEdges : Nat → List Employee → List Nat
  | _, [] => []
  | i, e :: rest =>
    if e.available then i :: srcEdges (i + 1) rest else srcEdges (i + 1) rest

/-- Edges appended to graph[i] for one employee, scheduling.py lines
43-45: one edge i -> j for each customer in the employee's
allowed_customers, j counting from the given start. -/
def empEdges (e : Employee) : Nat → List String → List Nat
  | _, [] => []
  | j, c :: rest =>
    if e.allowed_customers.contains c then j :: empEdges e (j + 1) rest
    else empEdges e (j + 1) rest

/-- Row of an employee node u (1-based) in the built graph,
scheduling.py lines 41-45: only available employees receive edges. -/
def empRow (es : List Employee) (cs : List String) (u : Nat) : List Nat :=
  match es.get? (u - 1) with
  | some e => if e.available then empEdges e (es.length + 1) cs else []
  | none => []

/-- EmployeeCustomerMatcher._build_graph, scheduling.py lines 31-47. -/
def build_graph (es : List Employee) (cs : List String) : Graph :=
  fun u =>
    if u = 0 then srcEdges 1 es
    else if u ≤ es.length then empRow es cs u
    else []

/-- Customer-to-sink edges, scheduling.py lines 85-86: every customer
node N+1..N+M gets one edge to the sink N+M+1. -/
def addSinkEdges (g : Graph) (N Mn : Nat) : Graph :=
  fun u => if N + 1 ≤ u ∧ u ≤ N + Mn then g u ++ [N + Mn + 1] else g u

/-- Result of the inner neighbour scan of _bfs. -/
structure ScanRes where
  vis : List Nat
  queue : List Nat
  par : List (Nat × Nat)
  found : Bool

/-- Inner loop of _bfs over graph[u], scheduling.py lines 58-65: each
unvisited neighbour is enqueued, marked visited and given a parent, and
the scan stops returning true as soon as the sink is reached. -/
def scanAdj (sink u : Nat) : List Nat → List Nat → List Nat → List (Nat × Nat) → ScanRes
  | [], vis, q, par => ⟨vis, q, par, false⟩
  | v :: rest, vis, q, par =>
    if v ∈ vis then scanAdj sink u rest vis q par
    else
      let vis' := vis ++ [v]
      let q' := q ++ [v]
      let par' := (v, u) :: par
      if v = sink then ⟨vis', q', par', true⟩
      else scanAdj sink u rest vis' q' par'

/-- Outer loop of _bfs, scheduling.py lines 56-66, with explicit fuel.
The queue is a FIFO: popleft takes the head, appends go at the end.
Besides the Bool of the Python code the model returns the parent map and
the visited set, which the Python code keeps in mutable state. -/
def bfsLoop (g : Graph) (sink : Nat) :
    Nat → List Nat → List Nat → List (Nat × Nat) → Option (Bool × List (Nat × Nat) × List Nat)
  | 0, _, _, _ => none
  | fuel + 1, q, vis, par =>
    match q with
    | [] => some (false, par, vis)
    | u :: rest =>
      let r := scanAdj sink u (g u) vis rest par
      if r.found then some (true, r.par, r.vis)
      else bfsLoop g sink fuel r.queue r.vis r.par

/-- EmployeeCustomerMatcher._bfs, scheduling.py lines 49-66: visited and
queue start as the singleton source; the sentinel parent[source] = -1 is
omitted (see the file comment). -/
def bfs (g : Graph) (sink fuel : Nat) : Option (Bool × List (Nat × Nat) × List Nat) :=
  bfsLoop g sink fuel [0] [0] []

/-- Walk of scheduling.py lines 91-94 computing path_flow: starting from
the sink, follow parent pointers to the source, taking min(path_flow, 1)
at each step.  The accumulator none stands for the initial
float("Inf"); a missing parent entry is the Python KeyError. -/
def pathFlowWalk (par : List (Nat × Nat)) : Nat → Nat → Option Nat → Option (Option Nat)
  | 0, _, _ => none
  | fuel + 1, s, acc =>
    if s = 0 then some acc
    else
      match par.lookup s with
      | none => none
      | some u =>
        pathFlowWalk par fuel u (some (match acc with | none => 1 | some a => min a 1))

/-- Residual update walk of scheduling.py lines 99-104: starting from
the sink, for each edge (u, v) on the parent chain remove v from
graph[u] and append u to graph[v].  A missing edge is the Python
ValueError of list.remove, a missing parent entry the KeyError. -/
def augmentWalk (par : List (Nat × Nat)) : Nat → Graph → Nat → Option Graph
  | 0, _, _ => none
  | fuel + 1, g, v =>
    if v = 0 then some g
    else
      match par.lookup v with
      | none => none
      | some u =>
        if v ∈ g u then augmentWalk par fuel (gAppend (gErase g u v) v u) u
        else none

/-- Ford-Fulkerson loop of scheduling.py lines 89-104 with explicit
fuel: repeat bfs; on success compute path_flow, add it to the flow and
apply the residual update, otherwise stop. -/
def ffLoop (sink bfsFuel wFuel : Nat) : Nat → Graph → Nat → Option (Graph × Nat)
  | 0, _, _ => none
  | fuel + 1, g, flow =>
    match bfs g sink bfsFuel with
    | none => none
    | some (false, _, _) => some (g, flow)
    | some (true, par, _) =>
      match pathFlowWalk par wFuel sink none with
      | some (some pf) =>
        match augmentWalk par wFuel g sink with
        | some g' => ffLoop sink bfsFuel wFuel fuel g' (flow + pf)
        | none => none
      | _ => none

/-- Python dict insertion self.matches[customer] = employee: an existing
key keeps its position and gets the new value, a new key is appended.
The value is the 1-based index of the employee object. -/
def dinsert (c : String) (i : Nat) : List (String × Nat) → List (String × Nat)
  | [] => [(c, i)]
  | (c', i') :: rest => if c' = c then (c, i) :: rest else (c', i') :: dinsert c i rest

/-- Inner loop of the match extraction, scheduling.py lines 109-115, for
one employee with 1-based index i: scan the nodes v, and when i is in
graph[v] with v beyond the employee nodes, look up the customer name,
run assign_customer (its Bool result is discarded, as in line 112),
store the match and drop the customer from the unmatched set.

The Python loop runs over the keys of the defaultdict in insertion
order; the model runs over 0..N+M+1 in numeric order.  The two agree:
keys v with v > N are exactly the customer nodes, created in numeric
order by the sink-edge loop (lines 85-86) before any bfs call, followed
possibly by the sink node, created later during the first residual
update; keys created by mere access during bfs are employee nodes or the
source and are filtered out by v > N, and a node that never became a key
has the empty row, so scanning it is a no-op. -/
def extractOne (g : Graph) (cs : List String) (N i : Nat) :
    List Nat → Employee → List (String × Nat) → List String →
    Option (Employee × List (String × Nat) × List String)
  | [], e, ms, um => some (e, ms, um)
  | v :: rest, e, ms, um =>
    if i ∈ g v ∧ N < v then
      match cs.get? (v - N - 1) with
      | none => none
      | some c =>
        extractOne g cs N i rest (e.assign_customer c).1 (dinsert c i ms)
          (if c ∈ um then um.erase c else um)
    else extractOne g cs N i rest e ms um

/-- Outer loop of the match extraction, scheduling.py lines 107-115:
employees in order with 1-based indices; only available employees are
inspected. -/
def extractAll (g : Graph) (cs : List String) (N : Nat) :
    Nat → List Employee → List (String × Nat) → List String →
    Option (List Employee × List (String × Nat) × List String)
  | _, [], ms, um => some ([], ms, um)
  | i, e :: rest, ms, um =>
    if e.available then
      match extractOne g cs N i (List.range (N + cs.length + 2)) e ms um with
      | none => none
      | some (e', ms', um') =>
        match extractAll g cs N (i + 1) rest ms' um' with
        | none => none
        | some (res, ms'', um'') => some (e' :: res, ms'', um'')
    else
      match extractAll g cs N (i + 1) rest ms um with
      | none => none
      | some (res, ms'', um'') => some (e :: res, ms'', um'')

/-- Result of one run of match_customers: the final employee objects,
the matches dict (customer name to 1-based employee index), the
unmatched customer set, the accumulated max_flow, and the final residual
graph. -/
structure RunResult where
  employees : List Employee
  -- the Python attribute self.matches; the word matches is reserved in Lean
  matchesMap : List (String × Nat)
  unmatched : List String
  maxFlow : Nat
  graph : Graph

/-- EmployeeCustomerMatcher.match_customers, scheduling.py lines 68-117:
clear all assignments, initialise the unmatched set and the matches
dict, build the graph, add the customer-to-sink edges, run the
Ford-Fulkerson loop, and convert the flow to matches.  The fuel values
are sufficient for every input (proved below): the Ford-Fulkerson loop
needs at most N augmentations, a bfs dequeues at most N+M+2 nodes and
the parent chains have at most N+M+2 nodes. -/
def match_customers (es : List Employee) (cs : List String) : Option RunResult :=
  let esC := es.map Employee.clear_assignment
  let N := es.length
  let Mn := cs.length
  let sink := N + Mn + 1
  let g0 := addSinkEdges (build_graph esC cs) N Mn
  match ffLoop sink (N + Mn + 3) (N + Mn + 3) (N + 1) g0 0 with
  | none => none
  | some (gF, flow) =>
    match extractAll gF cs N 1 esC [] cs.dedup with
    | none => none
    | some (es', ms, um) => some ⟨es', ms, um, flow, gF⟩

/-- Summary record, scheduling.py lines 119-134. -/
structure Summary where
  successful_matches : Nat
  unmatched_customers : List String
  -- the "matches" entry of the Python summary dict; matches is reserved in Lean
  matchesNames : List (String × String)
  available_employees : List String
  unavailable_employees : List String
deriving DecidableEq, Repr

/-- EmployeeCustomerMatcher.get_matching_summary, scheduling.py lines
119-134, reading the state left by match_customers.  The stored
employee indices are resolved against the final employee list, which
matches the Python reference semantics of the stored objects. -/
def get_matching_summary (es' : List Employee) (ms : List (String × Nat))
    (um : List String) : Summary :=
  { successful_matches := ms.length
    unmatched_customers := um
    matchesNames := ms.map (fun p => (p.1, ((es'.get? (p.2 - 1)).map Employee.name).getD ""))
    available_employees :=
      (es'.filter (fun e => e.assigned_customer == none && e.available)).map Employee.name
    unavailable_employees := (es'.filter (fun e => !e.available)).map Employee.name }

/-! ## Basic facts about the graph operations -/

lemma gAppend_same (g : Graph) (u v : Nat) : gAppend g u v u = g u ++ [v] := by
  simp [gAppend]

lemma gAppend_other (g : Graph) (u v x : Nat) (h : x ≠ u) : gAppend g u v x = g x := by
  simp [gAppend, h]

lemma gErase_same (g : Graph) (u v : Nat) : gErase g u v u = (g u).erase v := by
  simp [gErase]

lemma gErase_other (g : Graph) (u v x : Nat) (h : x ≠ u) : gErase g u v x = g x := by
  simp [gErase, h]

/-! ## Membership in the built graph -/

lemma srcEdges_mem (es : List Employee) (i x : Nat) :
    x ∈ srcEdges i es ↔ ∃ k, k < es.length ∧ x = i + k ∧
      ∃ e, es.get? k = some e ∧ e.available = true := by
  induction es generalizing i with
  | nil => simp [srcEdges]
  | cons e rest ih =>
    by_cases ha : e.available
    · simp only [srcEdges, ha, if_pos, List.mem_cons, ih (i + 1)]
      constructor
      · rintro (rfl | ⟨k, hk, rfl, e', he', hav⟩)
        · exact ⟨0, by simp, by omega, e, rfl, ha⟩
        · exact ⟨k + 1, by simpa using hk, by omega, e', by simpa using he', hav⟩
      · rintro ⟨k, hk, rfl, e', he', hav⟩
        cases k with
        | zero => left; omega
        | succ k =>
          right
          exact ⟨k, by simpa using hk, by omega, e', by simpa using he', hav⟩
    · simp only [srcEdges, ha, if_neg, Bool.false_eq_true, not_false_iff, ih (i + 1)]
      constructor
      · rintro ⟨k, hk, rfl, e', he', hav⟩
        exact ⟨k + 1, by simpa using hk, by omega, e', by simpa using he', hav⟩
      · rintro ⟨k, hk, rfl, e', he', hav⟩
        cases k with
        | zero =>
          exfalso
          simp only [List.get?_cons_zero, Option.some.injEq] at he'
          subst he'
          exact ha hav
        | succ k =>
          exact ⟨k, by simpa using hk, by omega, e', by simpa using he', hav⟩

lemma srcEdges_nodup (es : List Employee) (i : Nat) : (srcEdges i es).Nodup := by
  induction es generalizing i with
  | nil => simp [srcEdges]
  | cons e rest ih =>
    by_cases ha : e.available
    · simp only [srcEdges, ha, if_pos, List.nodup_cons]
      refine ⟨fun hmem => ?_, ih (i + 1)⟩
      rw [srcEdges_mem] at hmem
      obtain ⟨k, _, hk, _⟩ := hmem
      omega
    · simpa [srcEdges, ha] using ih (i + 1)

lemma srcEdges_length (es : List Employee) (i : Nat) :
    (srcEdges i es).length = (es.filter Employee.available).length := by
  induction es generalizing i with
  | nil => simp [srcEdges]
  | cons e rest ih =>
    by_cases ha : e.available
    · simp [srcEdges, ha, List.filter, ih (i + 1)]
    · simp [srcEdges, ha, List.filter, ih (i + 1)]

lemma empEdges_mem (e : Employee) (cs : List String) (j x : Nat) :
    x ∈ empEdges e j cs ↔ ∃ k, k < cs.length ∧ x = j + k ∧
      ∃ c, cs.get? k = some c ∧ e.allowed_customers.contains c = true := by
  induction cs generalizing j with
  | nil => simp [empEdges]
  | cons c rest ih =>
    by_cases hc : e.allowed_customers.contains c
    · simp only [empEdges, hc, if_pos, List.mem_cons, ih (j + 1)]
      constructor
      · rintro (rfl | ⟨k, hk, rfl, c', hc', hP⟩)
        · exact ⟨0, by simp, by omega, c, rfl, hc⟩
        · exact ⟨k + 1, by simpa using hk, by omega, c', by simpa using hc', hP⟩
      · rintro ⟨k, hk, rfl, c', hc', hP⟩
        cases k with
        | zero => left; omega
        | succ k =>
          right
          exact ⟨k, by simpa using hk, by omega, c', by simpa using hc', hP⟩
    · simp only [empEdges, hc, if_neg, Bool.false_eq_true, not_false_iff, ih (j + 1)]
      constructor
      · rintro ⟨k, hk, rfl, c', hc', hP⟩
        exact ⟨k + 1, by simpa using hk, by omega, c', by simpa using hc', hP⟩
      · rintro ⟨k, hk, rfl, c', hc', hP⟩
        cases k with
        | zero =>
          exfalso
          simp only [List.get?_cons_zero, Option.some.injEq] at hc'
          subst hc'
          exact hc hP
        | succ k =>
          exact ⟨k, by simpa using hk, by omega, c', by simpa using hc', hP⟩

lemma empEdges_nodup (e : Employee) (cs : List String) (j : Nat) :
    (empEdges e j cs).Nodup := by
  induction cs generalizing j with
  | nil => simp [empEdges]
  | cons c rest ih =>
    by_cases hc : e.allowed_customers.contains c
    · simp only [empEdges, hc, if_pos, List.nodup_cons]
      refine ⟨fun hmem => ?_, ih (j + 1)⟩
      rw [empEdges_mem] at hmem
      obtain ⟨k, _, hk, _⟩ := hmem
      omega
    · simp only [empEdges, hc, if_neg, Bool.false_eq_true, not_false_iff]
      exact ih (j + 1)

/-! ## Node classes and entity predicates -/

/-- Sink node index: len(employees) + len(customers) + 1 (line 81). -/
def sinkOf (es : List Employee) (cs : List String) : Nat :=
  es.length + cs.length + 1

/-- Availability of the employee behind node s (1-based). -/
def availB (es : List Employee) (s : Nat) : Bool :=
  ((es.get? (s - 1)).map Employee.available).getD false

/-- Eligibility: the customer behind node v is in the allowed_customers
list of the employee behind node s. -/
def eligB (es : List Employee) (cs : List String) (s v : Nat) : Bool :=
  match es.get? (s - 1), cs.get? (v - es.length - 1) with
  | some e, some c => e.allowed_customers.contains c
  | _, _ => false

/-- Initial residual graph of a run: built graph plus sink edges. -/
def g0Of (es : List Employee) (cs : List String) : Graph :=
  addSinkEdges (build_graph es cs) es.length cs.length

lemma availB_eq (es : List Employee) (s : Nat) (e : Employee)
    (he : es.get? (s - 1) = some e) : availB es s = e.available := by
  unfold availB
  rw [he]
  rfl

lemma eligB_eq (es : List Employee) (cs : List String) (s v : Nat) (e : Employee)
    (c : String) (he : es.get? (s - 1) = some e)
    (hc : cs.get? (v - es.length - 1) = some c) :
    eligB es cs s v = e.allowed_customers.contains c := by
  unfold eligB
  rw [he, hc]

lemma empRow_eq (es : List Employee) (cs : List String) (s : Nat) (e : Employee)
    (he : es.get? (s - 1) = some e) :
    empRow es cs s = if e.available then empEdges e (es.length + 1) cs else [] := by
  unfold empRow
  rw [he]

lemma g0_src (es : List Employee) (cs : List String) (x : Nat) :
    x ∈ g0Of es cs 0 ↔ 1 ≤ x ∧ x ≤ es.length ∧ availB es x = true := by
  have h0 : g0Of es cs 0 = srcEdges 1 es := by
    simp [g0Of, addSinkEdges, build_graph]
  rw [h0, srcEdges_mem]
  constructor
  · rintro ⟨k, hk, rfl, e, he, hav⟩
    refine ⟨by omega, by omega, ?_⟩
    have hidx : (1 : Nat) + k - 1 = k := by omega
    rw [availB, hidx, he]
    simpa using hav
  · rintro ⟨h1, h2, hav⟩
    simp only [availB] at hav
    cases he : es.get? (x - 1) with
    | none => rw [he] at hav; simp at hav
    | some e =>
      rw [he] at hav
      simp only [Option.map_some', Option.getD_some] at hav
      have hlt : x - 1 < es.length := by
        rcases List.get?_eq_some.mp he with ⟨hh, _⟩
        exact hh
      exact ⟨x - 1, hlt, by omega, e, he, hav⟩

lemma g0_src_nodup (es : List Employee) (cs : List String) : (g0Of es cs 0).Nodup := by
  have h0 : g0Of es cs 0 = srcEdges 1 es := by
    simp [g0Of, addSinkEdges, build_graph]
  rw [h0]; exact srcEdges_nodup es 1

lemma g0_src_length (es : List Employee) (cs : List String) :
    (g0Of es cs 0).length = (es.filter Employee.available).length := by
  have h0 : g0Of es cs 0 = srcEdges 1 es := by
    simp [g0Of, addSinkEdges, build_graph]
  rw [h0]; exact srcEdges_length es 1

lemma g0_srv (es : List Employee) (cs : List String) (s : Nat) (h1 : 1 ≤ s)
    (h2 : s ≤ es.length) (x : Nat) :
    x ∈ g0Of es cs s ↔ availB es s = true ∧ es.length + 1 ≤ x ∧
      x ≤ es.length + cs.length ∧ eligB es cs s x = true := by
  have hrow : g0Of es cs s = empRow es cs s := by
    simp only [g0Of, addSinkEdges, build_graph]
    rw [if_neg (by omega), if_neg (by omega), if_pos h2]
  rw [hrow]
  cases he : es.get? (s - 1) with
  | none =>
    exfalso
    have := List.get?_eq_none.mp he
    omega
  | some e =>
    rw [empRow_eq es cs s e he]
    by_cases hav : e.available
    · rw [if_pos hav]
      rw [empEdges_mem]
      constructor
      · rintro ⟨k, hk, rfl, c, hc, hP⟩
        have hidx : es.length + 1 + k - es.length - 1 = k := by omega
        refine ⟨by rw [availB_eq es s e he]; exact hav, by omega, by omega, ?_⟩
        rw [eligB_eq es cs s (es.length + 1 + k) e c he (by rw [hidx]; exact hc)]
        exact hP
      · rintro ⟨_, hx1, hx2, helig⟩
        cases hc : cs.get? (x - es.length - 1) with
        | none =>
          exfalso
          rw [eligB] at helig
          rw [he, hc] at helig
          simp at helig
        | some c =>
          rw [eligB_eq es cs s x e c he hc] at helig
          have hlt : x - es.length - 1 < cs.length := by
            rcases List.get?_eq_some.mp hc with ⟨hh, _⟩
            exact hh
          exact ⟨x - es.length - 1, hlt, by omega, c, hc, helig⟩
    · rw [if_neg hav]
      simp only [List.not_mem_nil, false_iff]
      rintro ⟨hav', _⟩
      rw [availB_eq es s e he] at hav'
      exact hav hav'

lemma g0_srv_nodup (es : List Employee) (cs : List String) (s : Nat) :
    (g0Of es cs s).Nodup := by
  by_cases hs0 : s = 0
  · subst hs0; exact g0_src_nodup es cs
  by_cases hsN : s ≤ es.length
  · have hrow : g0Of es cs s = empRow es cs s := by
      simp only [g0Of, addSinkEdges, build_graph]
      rw [if_neg (by omega), if_neg hs0, if_pos hsN]
    rw [hrow]
    cases he : es.get? (s - 1) with
    | none =>
      unfold empRow
      rw [he]
      simp
    | some e =>
      rw [empRow_eq es cs s e he]
      by_cases hav : e.available
      · rw [if_pos hav]; exact empEdges_nodup e cs (es.length + 1)
      · rw [if_neg hav]; simp
  · by_cases hreq : s ≤ es.length + cs.length
    · have hrow : g0Of es cs s = [sinkOf es cs] := by
        simp only [g0Of, addSinkEdges, build_graph, sinkOf]
        rw [if_pos (by omega)]
        rw [if_neg (by omega), if_neg (by omega)]
        rfl
      rw [hrow]; simp
    · have hrow : g0Of es cs s = [] := by
        simp only [g0Of, addSinkEdges, build_graph]
        rw [if_neg (by omega)]
        rw [if_neg (by omega), if_neg (by omega)]
      rw [hrow]; simp

lemma g0_req (es : List Employee) (cs : List String) (v : Nat)
    (h1 : es.length + 1 ≤ v) (h2 : v ≤ es.length + cs.length) :
    g0Of es cs v = [sinkOf es cs] := by
  simp only [g0Of, addSinkEdges, build_graph, sinkOf]
  rw [if_pos (by omega)]
  rw [if_neg (by omega), if_neg (by omega)]
  rfl

lemma g0_snk (es : List Employee) (cs : List String) :
    g0Of es cs (sinkOf es cs) = [] := by
  simp only [g0Of, addSinkEdges, build_graph, sinkOf]
  rw [if_neg (by omega)]
  rw [if_neg (by omega), if_neg (by omega)]

lemma g0_out (es : List Employee) (cs : List String) (u : Nat)
    (h : sinkOf es cs < u) : g0Of es cs u = [] := by
  simp only [g0Of, addSinkEdges, build_graph]
  simp only [sinkOf] at h
  rw [if_neg (by omega)]
  rw [if_neg (by omega), if_neg (by omega)]

/-! ## The flow invariant of the Ford-Fulkerson loop

A matching state M is a list of pairs (employee node, customer node)
describing one unit of flow source -> employee -> customer -> sink each.
FlowInv says that the residual graph is exactly the graph determined by
the matching state M. -/

structure FlowInv (es : List Employee) (cs : List String)
    (M : List (Nat × Nat)) (g : Graph) : Prop where
  wf : ∀ p ∈ M, 1 ≤ p.1 ∧ p.1 ≤ es.length ∧ es.length + 1 ≤ p.2 ∧
    p.2 ≤ es.length + cs.length ∧ availB es p.1 = true ∧ eligB es cs p.1 p.2 = true
  fstN : (M.map Prod.fst).Nodup
  sndN : (M.map Prod.snd).Nodup
  srcMem : ∀ x, x ∈ g 0 ↔
    1 ≤ x ∧ x ≤ es.length ∧ availB es x = true ∧ x ∉ M.map Prod.fst
  srcND : (g 0).Nodup
  srcLen : (g 0).length + M.length = (es.filter Employee.available).length
  srvMem : ∀ s, 1 ≤ s → s ≤ es.length → ∀ x, x ∈ g s ↔
    availB es s = true ∧
      ((es.length + 1 ≤ x ∧ x ≤ es.length + cs.length ∧ eligB es cs s x = true ∧
        (s, x) ∉ M) ∨ (x = 0 ∧ s ∈ M.map Prod.fst))
  srvND : ∀ s, 1 ≤ s → s ≤ es.length → (g s).Nodup
  reqMem : ∀ v, es.length + 1 ≤ v → v ≤ es.length + cs.length → ∀ x, x ∈ g v ↔
    ((x = sinkOf es cs ∧ v ∉ M.map Prod.snd) ∨ (x, v) ∈ M)
  reqND : ∀ v, es.length + 1 ≤ v → v ≤ es.length + cs.length → (g v).Nodup
  snkMem : ∀ x, x ∈ g (sinkOf es cs) ↔ x ∈ M.map Prod.snd
  snkND : (g (sinkOf es cs)).Nodup
  outEmpty : ∀ u, sinkOf es cs < u → g u = []

lemma flowInv_init (es : List Employee) (cs : List String) :
    FlowInv es cs [] (g0Of es cs) := by
  constructor
  · intro p hp; simp at hp
  · simp
  · simp
  · intro x
    rw [g0_src es cs x]
    simp
  · exact g0_src_nodup es cs
  · simpa using g0_src_length es cs
  · intro s h1 h2 x
    rw [g0_srv es cs s h1 h2 x]
    constructor
    · rintro ⟨hav, hx1, hx2, helig⟩
      exact ⟨hav, Or.inl ⟨hx1, hx2, helig, by simp⟩⟩
    · rintro ⟨hav, h | h⟩
      · exact ⟨hav, h.1, h.2.1, h.2.2.1⟩
      · simp at h
  · intro s _ _
    exact g0_srv_nodup es cs s
  · intro v h1 h2 x
    rw [g0_req es cs v h1 h2]
    simp
  · intro v h1 h2
    rw [g0_req es cs v h1 h2]
    simp
  · intro x
    rw [g0_snk es cs]
    simp
  · rw [g0_snk es cs]
    simp
  · intro u hu
    exact g0_out es cs u hu

/-- Every matching state has at most one pair per employee, hence at
most (number of available employees) pairs. -/
lemma flowInv_length_le (es : List Employee) (cs : List String)
    (M : List (Nat × Nat)) (g : Graph) (h : FlowInv es cs M g) :
    M.length ≤ es.length := by
  have hsub : M.map Prod.fst ⊆ List.range' 1 es.length := by
    intro x hx
    rcases List.mem_map.mp hx with ⟨p, hp, rfl⟩
    have := h.wf p hp
    rw [List.mem_range'_1]
    omega
  have := (h.fstN.subperm hsub).length_le
  simpa using this

/-- All edges of a FlowInv graph point at nodes below sink + 1. -/
lemma flowInv_bounded (es : List Employee) (cs : List String)
    (M : List (Nat × Nat)) (g : Graph) (h : FlowInv es cs M g) :
    ∀ u x, x ∈ g u → x < sinkOf es cs + 1 := by
  intro u x hx
  by_cases hu0 : u = 0
  · subst hu0
    have := (h.srcMem x).mp hx
    simp only [sinkOf]
    omega
  by_cases huN : u ≤ es.length
  · have := (h.srvMem u (by omega) huN x).mp hx
    rcases this.2 with hc | hc
    · simp only [sinkOf]; omega
    · simp only [sinkOf]; omega
  by_cases hureq : u ≤ es.length + cs.length
  · have := (h.reqMem u (by omega) hureq x).mp hx
    rcases this with hc | hc
    · simp only [sinkOf] at hc ⊢; omega
    · have hw := h.wf (x, u) hc
      simp only [Prod.fst, Prod.snd] at hw
      simp only [sinkOf]
      omega
  by_cases husnk : u = sinkOf es cs
  · subst husnk
    have := (h.snkMem x).mp hx
    rcases List.mem_map.mp this with ⟨p, hp, rfl⟩
    have := h.wf p hp
    simp only [sinkOf]
    omega
  · have hgt : sinkOf es cs < u := by
      simp only [sinkOf] at husnk ⊢
      omega
    rw [h.outEmpty u hgt] at hx
    simp at hx

/-! ## Parent chains

PChain g par v c says that c is the chain v, par[v], par[par[v]], ...
ending at the source 0, with every hop an edge of g and no repeated
node.  The bfs loop invariant produces such a chain for every visited
node; the two walks of match_customers follow exactly this chain. -/

inductive PChain (g : Graph) (par : List (Nat × Nat)) : Nat → List Nat → Prop where
  | nil : PChain g par 0 [0]
  | cons {v u : Nat} {c : List Nat} : v ≠ 0 → v ∉ c → par.lookup v = some u →
      v ∈ g u → PChain g par u c → PChain g par v (v :: c)

lemma pchain_head {g : Graph} {par : List (Nat × Nat)} {x : Nat} {c : List Nat}
    (h : PChain g par x c) : ∃ t, c = x :: t := by
  cases h with
  | nil => exact ⟨[], rfl⟩
  | cons _ _ _ _ _ => exact ⟨_, rfl⟩

lemma pchain_nodup {g : Graph} {par : List (Nat × Nat)} {x : Nat} {c : List Nat}
    (h : PChain g par x c) : c.Nodup := by
  induction h with
  | nil => simp
  | cons hne hnm hlk hmem _ ih => exact List.nodup_cons.mpr ⟨hnm, ih⟩

lemma pchain_zero_mem {g : Graph} {par : List (Nat × Nat)} {x : Nat} {c : List Nat}
    (h : PChain g par x c) : 0 ∈ c := by
  induction h with
  | nil => simp
  | cons _ _ _ _ _ ih => exact List.mem_cons_of_mem _ ih

/-- Extending the parent map with a fresh key preserves chains that do
not mention the key. -/
lemma pchain_extend {g : Graph} {par : List (Nat × Nat)} {x w z : Nat} {c : List Nat}
    (h : PChain g par x c) (hw : w ∉ c) : PChain g ((w, z) :: par) x c := by
  induction h with
  | nil => exact PChain.nil
  | cons hne hnm hlk hmem hc ih =>
    rename_i v u c'
    have hvw : v ≠ w := by
      intro hvw
      exact hw (hvw ▸ List.mem_cons_self v c')
    refine PChain.cons hne hnm ?_ hmem (ih (fun hwc => hw (List.mem_cons_of_mem _ hwc)))
    have hb : (v == w) = false := by simpa using hvw
    simp [List.lookup, hb, hlk]

/-- The consecutive-edge predicate of a chain: for every adjacent pair
(a, b) of the list, a is in the row of b. -/
def EdgesIn (g : Graph) : List Nat → Prop
  | a :: b :: rest => a ∈ g b ∧ EdgesIn g (b :: rest)
  | _ => True

lemma pchain_edges {g : Graph} {par : List (Nat × Nat)} {x : Nat} {c : List Nat}
    (h : PChain g par x c) : EdgesIn g c := by
  induction h with
  | nil => trivial
  | cons hne hnm hlk hmem hc ih =>
    obtain ⟨t, rfl⟩ := pchain_head hc
    exact ⟨hmem, ih⟩

lemma edgesIn_of_agree {g g' : Graph} {l : List Nat}
    (hag : ∀ b ∈ l.tail, g' b = g b) (h : EdgesIn g l) : EdgesIn g' l := by
  induction l with
  | nil => trivial
  | cons a rest ih =>
    cases rest with
    | nil => trivial
    | cons b t =>
      obtain ⟨h1, h2⟩ := h
      constructor
      · rw [hag b (by simp)]
        exact h1
      · refine ih ?_ h2
        intro x hx
        exact hag x (List.mem_cons_of_mem _ hx)

/-- The pure residual update along an explicit chain: for every adjacent
pair (a, b), remove a from the row of b and append b to the row of a,
in chain order. -/
def augmentPath : Graph → List Nat → Graph
  | g, a :: b :: rest => augmentPath (gAppend (gErase g b a) a b) (b :: rest)
  | g, _ => g

/-- The residual update walk of match_customers computes exactly the
pure chain update. -/
lemma augmentWalk_eq {g : Graph} {par : List (Nat × Nat)} {v : Nat} {c : List Nat}
    (h : PChain g par v c) :
    ∀ g' fuel, EdgesIn g' c → c.length ≤ fuel →
      augmentWalk par fuel g' v = some (augmentPath g' c) := by
  induction h with
  | nil =>
    intro g' fuel _ hfuel
    match fuel, hfuel with
    | f + 1, _ =>
      simp [augmentWalk, augmentPath]
  | cons hne hnm hlk hmem hc ih =>
    rename_i v u c'
    intro g' fuel hedges hfuel
    obtain ⟨t, rfl⟩ := pchain_head hc
    match fuel, hfuel with
    | f + 1, hfuel =>
      obtain ⟨he1, he2⟩ := hedges
      have hstep : augmentWalk par (f + 1) g' v =
          augmentWalk par f (gAppend (gErase g' u v) v u) u := by
        rw [augmentWalk]
        rw [if_neg hne, hlk]
        simp only []
        rw [if_pos he1]
      rw [hstep]
      have hpath : augmentPath g' (v :: u :: t) =
          augmentPath (gAppend (gErase g' u v) v u) (u :: t) := rfl
      rw [hpath]
      have hnd : (v :: u :: t).Nodup := pchain_nodup (PChain.cons hne hnm hlk hmem hc)
      refine ih (gAppend (gErase g' u v) v u) f ?_ (by simpa using hfuel)
      refine edgesIn_of_agree ?_ he2
      intro b hb
      have hbu : b ≠ u := by
        have : u ∉ t := by
          have := List.nodup_cons.mp (List.nodup_cons.mp hnd).2
          exact this.1
        intro hbu
        exact this (hbu ▸ hb)
      have hbv : b ≠ v := by
        intro hbv
        exact hnm (hbv ▸ List.mem_cons_of_mem _ hb)
      rw [gAppend_other _ _ _ _ hbv, gErase_other _ _ _ _ hbu]

lemma pathFlowWalk_one {g : Graph} {par : List (Nat × Nat)} {v : Nat} {c : List Nat}
    (h : PChain g par v c) :
    ∀ fuel, c.length ≤ fuel → pathFlowWalk par fuel v (some 1) = some (some 1) := by
  induction h with
  | nil =>
    intro fuel hfuel
    match fuel, hfuel with
    | f + 1, _ => simp [pathFlowWalk]
  | cons hne hnm hlk hmem hc ih =>
    rename_i v u c'
    intro fuel hfuel
    match fuel, hfuel with
    | f + 1, hfuel =>
      rw [pathFlowWalk]
      rw [if_neg hne, hlk]
      simp only []
      have : (some (min 1 1) : Option Nat) = some 1 := by simp
      rw [this]
      exact ih f (by simpa using hfuel)

/-- The path_flow walk of match_customers always computes the value 1,
since the sink is not the source. -/
lemma pathFlowWalk_spec {g : Graph} {par : List (Nat × Nat)} {v : Nat} {c : List Nat}
    (h : PChain g par v c) (hv : v ≠ 0) :
    ∀ fuel, c.length ≤ fuel → pathFlowWalk par fuel v none = some (some 1) := by
  cases h with
  | nil => exact absurd rfl hv
  | cons hne hnm hlk hmem hc =>
    rename_i u c'
    intro fuel hfuel
    match fuel, hfuel with
    | f + 1, hfuel =>
      rw [pathFlowWalk]
      rw [if_neg hv, hlk]
      simp only []
      exact pathFlowWalk_one hc f (by simpa using hfuel)

/-! ## Correctness of the breadth-first search -/

/-- What a failed bfs certifies: a set of nodes containing the source,
closed under edges, not containing the sink, in which every node other
than the source has an incoming edge from the set. -/
structure BfsClosed (g : Graph) (sink : Nat) (V : List Nat) : Prop where
  hz : 0 ∈ V
  closed : ∀ u ∈ V, ∀ w ∈ g u, w ∈ V
  nsink : sink ∉ V
  origin : ∀ x ∈ V, x = 0 ∨ ∃ u ∈ V, x ∈ g u

/-- Behaviour of one neighbour scan. -/
structure ScanOut (g : Graph) (sink : Nat) (adj vis q : List Nat) (r : ScanRes) : Prop where
  ext : ∃ fresh : List Nat, r.vis = vis ++ fresh ∧ r.queue = q ++ fresh ∧
    fresh.Nodup ∧ ∀ y ∈ fresh, y ∉ vis ∧ y ∈ adj
  chains : ∀ x ∈ r.vis, ∃ c, PChain g r.par x c ∧ ∀ y ∈ c, y ∈ r.vis
  ffalse : r.found = false → (∀ v ∈ adj, v ∈ r.vis) ∧ sink ∉ r.vis
  ftrue : r.found = true → sink ∈ r.vis ∧
    ∃ c, PChain g r.par sink c ∧ ∀ y ∈ c, y ∈ r.vis

lemma scanAdj_spec (g : Graph) (sink u : Nat) :
    ∀ (adj vis q : List Nat) (par : List (Nat × Nat)),
      vis.Nodup → (∀ x ∈ q, x ∈ vis) → 0 ∈ vis → sink ∉ vis →
      (∀ x ∈ vis, ∃ c, PChain g par x c ∧ ∀ y ∈ c, y ∈ vis) →
      u ∈ vis → (∀ v ∈ adj, v ∈ g u) →
      ScanOut g sink adj vis q (scanAdj sink u adj vis q par) := by
  intro adj
  induction adj with
  | nil =>
    intro vis q par hvnd hqsub hz hnsink hchains hu hadj
    refine ⟨⟨[], by simp [scanAdj], by simp [scanAdj], by simp, by simp⟩, ?_, ?_, ?_⟩
    · intro x hx
      exact hchains x hx
    · intro _
      exact ⟨by simp, hnsink⟩
    · intro hT
      simp [scanAdj] at hT
  | cons v rest ih =>
    intro vis q par hvnd hqsub hz hnsink hchains hu hadj
    by_cases hvvis : v ∈ vis
    · have hrec := ih vis q par hvnd hqsub hz hnsink hchains hu
        (fun w hw => hadj w (List.mem_cons_of_mem _ hw))
      have heq : scanAdj sink u (v :: rest) vis q par = scanAdj sink u rest vis q par := by
        rw [scanAdj, if_pos hvvis]
      rw [heq]
      refine ⟨?_, hrec.chains, ?_, hrec.ftrue⟩
      · obtain ⟨fresh, h1, h2, h3, h4⟩ := hrec.ext
        exact ⟨fresh, h1, h2, h3, fun y hy =>
          ⟨(h4 y hy).1, List.mem_cons_of_mem _ (h4 y hy).2⟩⟩
      · intro hF
        obtain ⟨hall, hns⟩ := hrec.ffalse hF
        refine ⟨?_, hns⟩
        intro w hw
        rcases List.mem_cons.mp hw with rfl | hw'
        · obtain ⟨fresh, h1, _, _, _⟩ := hrec.ext
          rw [h1]
          exact List.mem_append_left _ hvvis
        · exact hall w hw'
    · have hv0 : v ≠ 0 := fun hv0 => hvvis (hv0 ▸ hz)
      have hvgu : v ∈ g u := hadj v (List.mem_cons_self _ _)
      have hnewchains : ∀ x ∈ vis ++ [v],
          ∃ c, PChain g ((v, u) :: par) x c ∧ ∀ y ∈ c, y ∈ vis ++ [v] := by
        intro x hx
        rcases List.mem_append.mp hx with hx' | hx'
        · obtain ⟨c, hc, hsub⟩ := hchains x hx'
          refine ⟨c, pchain_extend hc (fun hvc => hvvis (hsub v hvc)), ?_⟩
          intro y hy
          exact List.mem_append_left _ (hsub y hy)
        · simp only [List.mem_singleton] at hx'
          subst hx'
          obtain ⟨c, hc, hsub⟩ := hchains u hu
          have hxc : x ∉ c := fun hxc => hvvis (hsub x hxc)
          refine ⟨x :: c, PChain.cons hv0 hxc ?_ hvgu (pchain_extend hc hxc), ?_⟩
          · simp [List.lookup]
          · intro y hy
            rcases List.mem_cons.mp hy with rfl | hy'
            · exact List.mem_append_right _ (by simp)
            · exact List.mem_append_left _ (hsub y hy')
      by_cases hvs : v = sink
      · have heq : scanAdj sink u (v :: rest) vis q par =
            ⟨vis ++ [v], q ++ [v], (v, u) :: par, true⟩ := by
          rw [scanAdj, if_neg hvvis]
          simp only [hvs, if_pos]
        rw [heq]
        refine ⟨⟨[v], rfl, rfl, by simp, ?_⟩, hnewchains, ?_, ?_⟩
        · intro y hy
          simp only [List.mem_singleton] at hy
          subst hy
          exact ⟨hvvis, List.mem_cons_self _ _⟩
        · intro hF
          simp at hF
        · intro _
          subst hvs
          refine ⟨List.mem_append_right _ (by simp), ?_⟩
          obtain ⟨c, hc, hsub⟩ := hnewchains v (List.mem_append_right _ (by simp))
          exact ⟨c, hc, hsub⟩
      · have heq : scanAdj sink u (v :: rest) vis q par =
            scanAdj sink u rest (vis ++ [v]) (q ++ [v]) ((v, u) :: par) := by
          rw [scanAdj, if_neg hvvis]
          simp only [hvs, if_neg, ite_false]
        rw [heq]
        have hvnd' : (vis ++ [v]).Nodup := by
          rw [List.nodup_append]
          exact ⟨hvnd, by simp, by simpa using fun hvv => hvvis hvv⟩
        have hqsub' : ∀ x ∈ q ++ [v], x ∈ vis ++ [v] := by
          intro x hx
          rcases List.mem_append.mp hx with hx' | hx'
          · exact List.mem_append_left _ (hqsub x hx')
          · exact List.mem_append_right _ hx'
        have hz' : 0 ∈ vis ++ [v] := List.mem_append_left _ hz
        have hnsink' : sink ∉ vis ++ [v] := by
          intro hs
          rcases List.mem_append.mp hs with hs' | hs'
          · exact hnsink hs'
          · simp only [List.mem_singleton] at hs'
            exact hvs hs'.symm
        have hu' : u ∈ vis ++ [v] := List.mem_append_left _ hu
        have hrec := ih (vis ++ [v]) (q ++ [v]) ((v, u) :: par) hvnd' hqsub' hz'
          hnsink' hnewchains hu' (fun w hw => hadj w (List.mem_cons_of_mem _ hw))
        refine ⟨?_, hrec.chains, ?_, hrec.ftrue⟩
        · obtain ⟨fresh, h1, h2, h3, h4⟩ := hrec.ext
          refine ⟨v :: fresh, by rw [h1, List.append_assoc]; rfl,
            by rw [h2, List.append_assoc]; rfl, ?_, ?_⟩
          · rw [List.nodup_cons]
            refine ⟨fun hvf => ?_, h3⟩
            exact (h4 v hvf).1 (List.mem_append_right _ (by simp))
          · intro y hy
            rcases List.mem_cons.mp hy with rfl | hy'
            · exact ⟨hvvis, List.mem_cons_self _ _⟩
            · refine ⟨fun hyv => (h4 y hy').1 (List.mem_append_left _ hyv),
                List.mem_cons_of_mem _ (h4 y hy').2⟩
        · intro hF
          obtain ⟨hall, hns⟩ := hrec.ffalse hF
          refine ⟨?_, hns⟩
          intro w hw
          rcases List.mem_cons.mp hw with rfl | hw'
          · obtain ⟨fresh, h1, _, _, _⟩ := hrec.ext
            rw [h1]
            exact List.mem_append_left _ (List.mem_append_right _ (by simp))
          · exact hall w hw'

/-- A nodup list of naturals below a bound has length at most the bound. -/
lemma nodup_bounded_length {l : List Nat} {bound : Nat} (hnd : l.Nodup)
    (hb : ∀ x ∈ l, x < bound) : l.length ≤ bound := by
  have hsub : l ⊆ List.range bound := by
    intro x hx
    rw [List.mem_range]
    exact hb x hx
  have := (hnd.subperm hsub).length_le
  simpa using this

lemma bfsLoop_spec (g : Graph) (sink bound : Nat)
    (hgb : ∀ u x, x ∈ g u → x < bound) :
    ∀ (fuel : Nat) (q vis : List Nat) (par : List (Nat × Nat)),
      vis.Nodup → (∀ x ∈ q, x ∈ vis) → q.Nodup → 0 ∈ vis → sink ∉ vis →
      (∀ x ∈ vis, ∃ c, PChain g par x c ∧ ∀ y ∈ c, y ∈ vis) →
      (∀ x ∈ vis, x ∉ q → ∀ w ∈ g x, w ∈ vis) →
      (∀ x ∈ vis, x < bound) →
      bound + q.length < fuel + vis.length →
      ∃ found parOut visOut,
        bfsLoop g sink fuel q vis par = some (found, parOut, visOut) ∧
        (found = false → BfsClosed g sink visOut) ∧
        (found = true → ∃ c, PChain g parOut sink c ∧ c.Nodup ∧ c.length ≤ bound) := by
  intro fuel
  induction fuel with
  | zero =>
    intro q vis par hvnd hqsub hqnd hz hnsink hchains hproc hvb hfuel
    exfalso
    have := nodup_bounded_length hvnd hvb
    omega
  | succ fuel ih =>
    intro q vis par hvnd hqsub hqnd hz hnsink hchains hproc hvb hfuel
    match q with
    | [] =>
      refine ⟨false, par, vis, by rw [bfsLoop], ?_, by simp⟩
      intro _
      refine ⟨hz, ?_, hnsink, ?_⟩
      · intro u hu w hw
        exact hproc u hu (by simp) w hw
      · intro x hx
        obtain ⟨c, hc, hsub⟩ := hchains x hx
        cases hc with
        | nil => exact Or.inl rfl
        | cons hne hnm hlk hmem hc' =>
          rename_i u c'
          obtain ⟨t, rfl⟩ := pchain_head hc'
          exact Or.inr ⟨u, hsub u (List.mem_cons_of_mem _ (List.mem_cons_self _ _)), hmem⟩
    | u :: rest =>
      have hscan := scanAdj_spec g sink u (g u) vis rest par hvnd
        (fun x hx => hqsub x (List.mem_cons_of_mem _ hx)) hz hnsink hchains
        (hqsub u (List.mem_cons_self _ _)) (fun v hv => hv)
      set r := scanAdj sink u (g u) vis rest par with hrdef
      have hloopeq : bfsLoop g sink (fuel + 1) (u :: rest) vis par =
          if r.found then some (true, r.par, r.vis)
          else bfsLoop g sink fuel r.queue r.vis r.par := by
        rw [bfsLoop]
      obtain ⟨fresh, hv1, hq1, hfnd, hfprop⟩ := hscan.ext
      have hrvnd : r.vis.Nodup := by
        rw [hv1, List.nodup_append]
        refine ⟨hvnd, hfnd, ?_⟩
        intro a ha hb
        exact (hfprop a hb).1 ha
      have hrvb : ∀ x ∈ r.vis, x < bound := by
        intro x hx
        rw [hv1] at hx
        rcases List.mem_append.mp hx with hx' | hx'
        · exact hvb x hx'
        · exact hgb u x (hfprop x hx').2
      cases hrf : r.found with
      | true =>
        rw [hloopeq, if_pos hrf]
        refine ⟨true, r.par, r.vis, rfl, by simp, ?_⟩
        intro _
        obtain ⟨hsv, c, hc, hcs⟩ := hscan.ftrue hrf
        refine ⟨c, hc, pchain_nodup hc, ?_⟩
        calc c.length ≤ r.vis.length := by
              have hcsub : c ⊆ r.vis := hcs
              exact ((pchain_nodup hc).subperm hcsub).length_le
          _ ≤ bound := nodup_bounded_length hrvnd hrvb
      | false =>
        rw [hloopeq, if_neg (by rw [hrf]; simp)]
        obtain ⟨hall, hns⟩ := hscan.ffalse hrf
        have hvsub : ∀ x ∈ vis, x ∈ r.vis := by
          intro x hx
          rw [hv1]
          exact List.mem_append_left _ hx
        refine ih r.queue r.vis r.par hrvnd ?_ ?_ (hvsub 0 hz) hns hscan.chains ?_ hrvb ?_
        · intro x hx
          rw [hq1] at hx
          rcases List.mem_append.mp hx with hx' | hx'
          · exact hvsub x (hqsub x (List.mem_cons_of_mem _ hx'))
          · rw [hv1]
            exact List.mem_append_right _ hx'
        · rw [hq1, List.nodup_append]
          refine ⟨(List.nodup_cons.mp hqnd).2, hfnd, ?_⟩
          intro a ha hb
          exact (hfprop a hb).1 (hqsub a (List.mem_cons_of_mem _ ha))
        · intro x hx hxq w hw
          rw [hv1] at hx
          rcases List.mem_append.mp hx with hx' | hx'
          · by_cases hxu : x = u
            · subst hxu
              exact hall w hw
            · have hxq' : x ∉ u :: rest := by
                intro hmem
                rcases List.mem_cons.mp hmem with h' | h'
                · exact hxu h'
                · exact hxq (by rw [hq1]; exact List.mem_append_left _ h')
              exact hvsub w (hproc x hx' hxq' w hw)
          · exfalso
            exact hxq (by rw [hq1]; exact List.mem_append_right _ hx')
        · have hlen1 : r.vis.length = vis.length + fresh.length := by
            rw [hv1, List.length_append]
          have hlen2 : r.queue.length = rest.length + fresh.length := by
            rw [hq1, List.length_append]
          simp only [List.length_cons] at hfuel
          omega

lemma bfs_spec (g : Graph) (sink bound fuel : Nat)
    (hgb : ∀ u x, x ∈ g u → x < bound) (hsink0 : sink ≠ 0) (hb0 : 0 < bound)
    (hfuel : bound < fuel) :
    ∃ found parOut visOut, bfs g sink fuel = some (found, parOut, visOut) ∧
      (found = false → BfsClosed g sink visOut) ∧
      (found = true → ∃ c, PChain g parOut sink c ∧ c.Nodup ∧ c.length ≤ bound) := by
  refine bfsLoop_spec g sink bound hgb fuel [0] [0] [] (by simp) (by simp) (by simp)
    (by simp) (by simpa using fun h => hsink0 h) ?_ ?_ (by simpa using hb0) ?_
  · intro x hx
    simp only [List.mem_singleton] at hx
    subst hx
    exact ⟨[0], PChain.nil, by simp⟩
  · intro x hx hxq
    simp only [List.mem_singleton] at hx
    exfalso
    exact hxq (by simp [hx])
  · simp only [List.length_singleton]
    omega

/-! ## Alternating augmenting chains

An augmenting chain found by bfs descends from the sink through an
unmatched customer, then alternates: a residual forward edge employee ->
customer that is not in the matching, then (optionally) the reverse edge
of the matched pair of that employee, and ends at an available unmatched
employee connected to the source.  AltSR describes the part of the chain
after the sink. -/

inductive AltSR (es : List Employee) (cs : List String) (M : List (Nat × Nat)) :
    List Nat → Prop where
  | base {r s : Nat} :
      es.length + 1 ≤ r → r ≤ es.length + cs.length →
      1 ≤ s → s ≤ es.length → availB es s = true → eligB es cs s r = true →
      (s, r) ∉ M → s ∉ M.map Prod.fst → AltSR es cs M [r, s, 0]
  | cons {r s r' : Nat} {rest : List Nat} :
      es.length + 1 ≤ r → r ≤ es.length + cs.length →
      1 ≤ s → s ≤ es.length → availB es s = true → eligB es cs s r = true →
      (s, r) ∉ M → (s, r') ∈ M →
      AltSR es cs M (r' :: rest) → AltSR es cs M (r :: s :: r' :: rest)

/-- Uniqueness of the partner of an employee in a matching state. -/
lemma fst_unique {M : List (Nat × Nat)} (hfstN : (M.map Prod.fst).Nodup)
    {s y y' : Nat} (h1 : (s, y) ∈ M) (h2 : (s, y') ∈ M) : y = y' := by
  have := List.inj_on_of_nodup_map hfstN h1 h2 rfl
  exact congrArg Prod.snd this

/-- Uniqueness of the partner of a customer in a matching state. -/
lemma snd_unique {M : List (Nat × Nat)} (hsndN : (M.map Prod.snd).Nodup)
    {y y' r : Nat} (h1 : (y, r) ∈ M) (h2 : (y', r) ∈ M) : y = y' := by
  have := List.inj_on_of_nodup_map hsndN h1 h2 rfl
  exact congrArg Prod.fst this

lemma mem_erase_pair {M : List (Nat × Nat)} (hfstN : (M.map Prod.fst).Nodup)
    (p q : Nat × Nat) : q ∈ M.erase p ↔ q ∈ M ∧ q ≠ p := by
  have hMnd : M.Nodup := hfstN.of_map
  rw [hMnd.mem_erase_iff]
  tauto

/-- Rerouting an employee that does not occur in the chain keeps the
chain alternating. -/
lemma altSR_update {es : List Employee} {cs : List String} {M : List (Nat × Nat)}
    (hfstN : (M.map Prod.fst).Nodup) {d : List Nat}
    (h : AltSR es cs M d) (s0 r0 r0' : Nat) (hs0 : s0 ∉ d) :
    AltSR es cs ((s0, r0) :: M.erase (s0, r0')) d := by
  induction h with
  | base hr1 hr2 hs1 hs2 hav helig hnm hnf =>
    rename_i r s
    have hss0 : s ≠ s0 := by
      intro hss0
      exact hs0 (hss0 ▸ (by simp : s ∈ [r, s, 0]))
    refine AltSR.base hr1 hr2 hs1 hs2 hav helig ?_ ?_
    · intro hmem
      rcases List.mem_cons.mp hmem with heq | hmem'
      · exact hss0 (congrArg Prod.fst heq)
      · exact hnm ((mem_erase_pair hfstN _ _).mp hmem').1
    · intro hmem
      rw [List.map_cons] at hmem
      rcases List.mem_cons.mp hmem with heq | hmem'
      · exact hss0 heq
      · rcases List.mem_map.mp hmem' with ⟨q, hq, hq1⟩
        exact hnf (List.mem_map.mpr ⟨q, ((mem_erase_pair hfstN _ _).mp hq).1, hq1⟩)
  | cons hr1 hr2 hs1 hs2 hav helig hnm hmm hrec ih =>
    rename_i r s r' rest
    have hss0 : s ≠ s0 := by
      intro hss0
      exact hs0 (hss0 ▸ (by simp : s ∈ r :: s :: r' :: rest))
    refine AltSR.cons hr1 hr2 hs1 hs2 hav helig ?_ ?_
      (ih (fun hmem => hs0 (by simp [hmem])))
    · intro hmem
      rcases List.mem_cons.mp hmem with heq | hmem'
      · exact hss0 (congrArg Prod.fst heq)
      · exact hnm ((mem_erase_pair hfstN _ _).mp hmem').1
    · rw [List.mem_cons]
      right
      rw [mem_erase_pair hfstN]
      refine ⟨hmm, ?_⟩
      intro heq
      exact hss0 (congrArg Prod.fst heq)

/-! ## The defect invariant

DefInv describes the residual graph in the middle of an augmentation:
the sink edge of the unmatched customer r0 has already been consumed
(its row is empty, the sink row already records r0), and the rest of the
graph still matches the matching state M. -/

structure DefInv (es : List Employee) (cs : List String)
    (M : List (Nat × Nat)) (r0 : Nat) (g : Graph) : Prop where
  wf : ∀ p ∈ M, 1 ≤ p.1 ∧ p.1 ≤ es.length ∧ es.length + 1 ≤ p.2 ∧
    p.2 ≤ es.length + cs.length ∧ availB es p.1 = true ∧ eligB es cs p.1 p.2 = true
  fstN : (M.map Prod.fst).Nodup
  sndN : (M.map Prod.snd).Nodup
  r0rng : es.length + 1 ≤ r0 ∧ r0 ≤ es.length + cs.length
  r0un : r0 ∉ M.map Prod.snd
  srcMem : ∀ x, x ∈ g 0 ↔
    1 ≤ x ∧ x ≤ es.length ∧ availB es x = true ∧ x ∉ M.map Prod.fst
  srcND : (g 0).Nodup
  srcLen : (g 0).length + M.length = (es.filter Employee.available).length
  srvMem : ∀ s, 1 ≤ s → s ≤ es.length → ∀ x, x ∈ g s ↔
    availB es s = true ∧
      ((es.length + 1 ≤ x ∧ x ≤ es.length + cs.length ∧ eligB es cs s x = true ∧
        (s, x) ∉ M) ∨ (x = 0 ∧ s ∈ M.map Prod.fst))
  srvND : ∀ s, 1 ≤ s → s ≤ es.length → (g s).Nodup
  reqMem : ∀ v, es.length + 1 ≤ v → v ≤ es.length + cs.length → v ≠ r0 →
    ∀ x, x ∈ g v ↔ ((x = sinkOf es cs ∧ v ∉ M.map Prod.snd) ∨ (x, v) ∈ M)
  reqND : ∀ v, es.length + 1 ≤ v → v ≤ es.length + cs.length → (g v).Nodup
  r0Mem : ∀ x, x ∉ g r0
  snkMem : ∀ x, x ∈ g (sinkOf es cs) ↔ (x ∈ M.map Prod.snd ∨ x = r0)
  snkND : (g (sinkOf es cs)).Nodup
  outEmpty : ∀ u, sinkOf es cs < u → g u = []

/-- Under the flow invariant, a parent chain starting at a customer node
and avoiding the sink is an alternating chain. -/
lemma chain_alt {es : List Employee} {cs : List String} {M : List (Nat × Nat)}
    {g : Graph} (hInv : FlowInv es cs M g) (par : List (Nat × Nat)) :
    ∀ (n : Nat) (x : Nat) (c : List Nat), c.length ≤ n → PChain g par x c →
      sinkOf es cs ∉ c → es.length + 1 ≤ x → x ≤ es.length + cs.length →
      AltSR es cs M c := by
  intro n
  induction n with
  | zero =>
    intro x c hlen hpc _ _ _
    obtain ⟨t, rfl⟩ := pchain_head hpc
    simp at hlen
  | succ n ih =>
    intro x c hlen hpc hsnk hx1 hx2
    cases hpc with
    | nil => omega
    | cons hne hnm hlk hmem hpc1 =>
      rename_i u c1
      obtain ⟨t, rfl⟩ := pchain_head hpc1
      have huc : u ∈ x :: u :: t := by simp
      -- classify the parent u of the customer x: it must be an employee
      have hu_srv : 1 ≤ u ∧ u ≤ es.length ∧ availB es u = true ∧
          eligB es cs u x = true ∧ (u, x) ∉ M := by
        by_cases hu0 : u = 0
        · subst hu0
          have := (hInv.srcMem x).mp hmem
          omega
        by_cases huN : u ≤ es.length
        · have := (hInv.srvMem u (by omega) huN x).mp hmem
          rcases this.2 with hb | hb
          · exact ⟨by omega, huN, this.1, hb.2.2.1, hb.2.2.2⟩
          · omega
        by_cases hureq : u ≤ es.length + cs.length
        · exfalso
          have := (hInv.reqMem u (by omega) hureq x).mp hmem
          rcases this with hb | hb
          · exact hsnk (hb.1 ▸ (by simp : x ∈ x :: u :: t))
          · have := hInv.wf _ hb
            simp only [Prod.fst, Prod.snd] at this
            omega
        by_cases husnk : u = sinkOf es cs
        · exact absurd (husnk ▸ huc) hsnk
        · exfalso
          have hgt : sinkOf es cs < u := by
            simp only [sinkOf] at husnk ⊢
            omega
          rw [hInv.outEmpty u hgt] at hmem
          simp at hmem
      obtain ⟨hu1, hu2, huav, huelig, hunm⟩ := hu_srv
      -- second step: the parent of the employee u
      cases hpc1 with
      | nil => omega
      | cons hne' hnm' hlk' hmem' hpc2 =>
        rename_i u'
        obtain ⟨t3, rfl⟩ := pchain_head hpc2
        by_cases hu'0 : u' = 0
        · -- chain ends at the source: u is unmatched and available
          subst hu'0
          have hsrc := (hInv.srcMem u).mp hmem'
          cases hpc2 with
          | nil =>
            exact AltSR.base hx1 hx2 hu1 hu2 huav huelig hunm hsrc.2.2.2
          | cons hne'' _ _ _ _ => exact absurd rfl hne''
        · -- the chain continues through the matched customer of u
          have hu'c : u' ∈ x :: u :: u' :: t3 := by simp
          have hu'req : es.length + 1 ≤ u' ∧ u' ≤ es.length + cs.length ∧
              (u, u') ∈ M := by
            by_cases hu'N : u' ≤ es.length
            · exfalso
              have := (hInv.srvMem u' (by omega) hu'N u).mp hmem'
              rcases this.2 with hb | hb
              · omega
              · omega
            by_cases hu'req : u' ≤ es.length + cs.length
            · have := (hInv.reqMem u' (by omega) hu'req u).mp hmem'
              rcases this with hb | hb
              · exfalso
                simp only [sinkOf] at hb
                omega
              · exact ⟨by omega, hu'req, hb⟩
            by_cases hu'snk : u' = sinkOf es cs
            · exact absurd (hu'snk ▸ hu'c) hsnk
            · exfalso
              have hgt : sinkOf es cs < u' := by
                simp only [sinkOf] at hu'snk ⊢
                omega
              rw [hInv.outEmpty u' hgt] at hmem'
              simp at hmem'
          obtain ⟨hu'1, hu'2, hupair⟩ := hu'req
          have hrec : AltSR es cs M (u' :: t3) := by
            refine ih u' (u' :: t3) ?_ hpc2 ?_ hu'1 hu'2
            · simp only [List.length_cons] at hlen ⊢
              omega
            · intro hs
              exact hsnk (List.mem_cons_of_mem _ (List.mem_cons_of_mem _ hs))
          exact AltSR.cons hx1 hx2 hu1 hu2 huav huelig hunm hupair hrec

lemma nodup_append_singleton {l : List Nat} {a : Nat} (h : l.Nodup) (ha : a ∉ l) :
    (l ++ [a]).Nodup := by
  rw [List.nodup_append]
  refine ⟨h, by simp, ?_⟩
  intro x hx hxa
  simp only [List.mem_singleton] at hxa
  exact ha (hxa ▸ hx)

/-- Augmentation along the final segment of a chain: the chain reaches
an available unmatched employee s and the source; the new matching state
gains the pair (s, r0). -/
lemma altStep_base {es : List Employee} {cs : List String} {M : List (Nat × Nat)}
    {g : Graph} {r0 s : Nat}
    (hr1 : es.length + 1 ≤ r0) (hr2 : r0 ≤ es.length + cs.length)
    (hs1 : 1 ≤ s) (hs2 : s ≤ es.length) (hav : availB es s = true)
    (helig : eligB es cs s r0 = true) (hnmS : (s, r0) ∉ M)
    (hnf : s ∉ M.map Prod.fst) (D : DefInv es cs M r0 g) :
    FlowInv es cs ((s, r0) :: M) (augmentPath g [r0, s, 0]) ∧
      ((s, r0) :: M).length = M.length + 1 := by
  have hsnkN : es.length + cs.length < sinkOf es cs := by
    simp only [sinkOf]; omega
  have hgr0 : g r0 = [] := List.eq_nil_iff_forall_not_mem.mpr D.r0Mem
  -- rows of the updated graph
  have hrow0 : augmentPath g [r0, s, 0] 0 = (g 0).erase s := by
    show (gAppend (gErase (gAppend (gErase g s r0) r0 s) 0 s) s 0) 0 = _
    rw [gAppend_other _ _ _ _ (by omega : (0 : Nat) ≠ s), gErase_same]
    rw [gAppend_other _ _ _ _ (by omega : (0 : Nat) ≠ r0)]
    rw [gErase_other _ _ _ _ (by omega : (0 : Nat) ≠ s)]
  have hrowS : augmentPath g [r0, s, 0] s = (g s).erase r0 ++ [0] := by
    show (gAppend (gErase (gAppend (gErase g s r0) r0 s) 0 s) s 0) s = _
    rw [gAppend_same]
    rw [gErase_other _ _ _ _ (by omega : s ≠ 0)]
    rw [gAppend_other _ _ _ _ (by omega : s ≠ r0), gErase_same]
  have hrowR : augmentPath g [r0, s, 0] r0 = [s] := by
    show (gAppend (gErase (gAppend (gErase g s r0) r0 s) 0 s) s 0) r0 = _
    rw [gAppend_other _ _ _ _ (by omega : r0 ≠ s)]
    rw [gErase_other _ _ _ _ (by omega : r0 ≠ 0)]
    rw [gAppend_same]
    rw [gErase_other _ _ _ _ (by omega : r0 ≠ s), hgr0]
    rfl
  have hrowE : ∀ x, x ≠ 0 → x ≠ s → x ≠ r0 → augmentPath g [r0, s, 0] x = g x := by
    intro x hx0 hxs hxr
    show (gAppend (gErase (gAppend (gErase g s r0) r0 s) 0 s) s 0) x = _
    rw [gAppend_other _ _ _ _ hxs, gErase_other _ _ _ _ hx0]
    rw [gAppend_other _ _ _ _ hxr, gErase_other _ _ _ _ hxs]
  have hsg0 : s ∈ g 0 := (D.srcMem s).mpr ⟨hs1, hs2, hav, hnf⟩
  have h0gs : (0 : Nat) ∉ g s := by
    intro h0
    have := (D.srvMem s hs1 hs2 0).mp h0
    rcases this.2 with hb | hb
    · omega
    · exact hnf hb.2
  refine ⟨?_, by simp⟩
  constructor
  · -- wf
    intro p hp
    rcases List.mem_cons.mp hp with rfl | hp'
    · exact ⟨hs1, hs2, hr1, hr2, hav, helig⟩
    · exact D.wf p hp'
  · -- fstN
    rw [show ((s, r0) :: M).map Prod.fst = s :: M.map Prod.fst from rfl, List.nodup_cons]
    exact ⟨hnf, D.fstN⟩
  · -- sndN
    rw [show ((s, r0) :: M).map Prod.snd = r0 :: M.map Prod.snd from rfl, List.nodup_cons]
    exact ⟨D.r0un, D.sndN⟩
  · -- srcMem
    intro x
    rw [hrow0, D.srcND.mem_erase_iff, D.srcMem x]
    simp only [List.map_cons, List.mem_cons]
    constructor
    · rintro ⟨hxs, h1, h2, h3, h4⟩
      refine ⟨h1, h2, h3, ?_⟩
      rintro (h | h)
      · exact hxs h
      · exact h4 h
    · rintro ⟨h1, h2, h3, h4⟩
      refine ⟨fun h => h4 (Or.inl h), h1, h2, h3, fun h => h4 (Or.inr h)⟩
  · -- srcND
    rw [hrow0]
    exact D.srcND.erase s
  · -- srcLen
    rw [hrow0, List.length_erase_of_mem hsg0, List.length_cons]
    have := D.srcLen
    have hpos : 1 ≤ (g 0).length := List.length_pos.mpr
      (List.ne_nil_of_mem hsg0)
    omega
  · -- srvMem
    intro t h1 h2 x
    have hpairM : ∀ a b : Nat, (a, b) ∈ (s, r0) :: M ↔ (a = s ∧ b = r0) ∨ (a, b) ∈ M := by
      intro a b
      rw [List.mem_cons, Prod.mk.injEq]
    have hfstM : ∀ y : Nat, y ∈ ((s, r0) :: M).map Prod.fst ↔
        y = s ∨ y ∈ M.map Prod.fst := by
      intro y
      rw [show ((s, r0) :: M).map Prod.fst = s :: M.map Prod.fst from rfl, List.mem_cons]
    by_cases hts : t = s
    · subst hts
      rw [hrowS]
      rw [List.mem_append, (D.srvND t h1 h2).mem_erase_iff, D.srvMem t h1 h2 x]
      rw [hpairM, hfstM]
      simp only [List.mem_singleton, eq_self_iff_true, true_and, true_or, and_true]
      constructor
      · rintro (⟨hxr, hA, hB | hB⟩ | rfl)
        · exact ⟨hA, Or.inl ⟨hB.1, hB.2.1, hB.2.2.1, fun h => h.elim hxr hB.2.2.2⟩⟩
        · exact absurd hB.2 hnf
        · exact ⟨hav, Or.inr rfl⟩
      · rintro ⟨hA, hB | hB⟩
        · exact Or.inl ⟨fun hxr => hB.2.2.2 (Or.inl hxr), hA,
            Or.inl ⟨hB.1, hB.2.1, hB.2.2.1, fun h => hB.2.2.2 (Or.inr h)⟩⟩
        · exact Or.inr hB
    · have htr : t ≠ r0 := by omega
      rw [hrowE t (by omega) hts htr, D.srvMem t h1 h2 x]
      rw [hpairM, hfstM]
      constructor
      · rintro ⟨hA, hB | hB⟩
        · exact ⟨hA, Or.inl ⟨hB.1, hB.2.1, hB.2.2.1,
            fun h => h.elim (fun hh => hts hh.1) hB.2.2.2⟩⟩
        · exact ⟨hA, Or.inr ⟨hB.1, Or.inr hB.2⟩⟩
      · rintro ⟨hA, hB | hB⟩
        · exact ⟨hA, Or.inl ⟨hB.1, hB.2.1, hB.2.2.1, fun h => hB.2.2.2 (Or.inr h)⟩⟩
        · rcases hB.2 with h | h
          · exact absurd h hts
          · exact ⟨hA, Or.inr ⟨hB.1, h⟩⟩
  · -- srvND
    intro t h1 h2
    by_cases hts : t = s
    · subst hts
      rw [hrowS]
      refine nodup_append_singleton ((D.srvND t h1 h2).erase r0) ?_
      intro h0
      exact h0gs (List.mem_of_mem_erase h0)
    · rw [hrowE t (by omega) hts (by omega)]
      exact D.srvND t h1 h2
  · -- reqMem
    intro v h1 h2 x
    have hpairM : ∀ a b : Nat, (a, b) ∈ (s, r0) :: M ↔ (a = s ∧ b = r0) ∨ (a, b) ∈ M := by
      intro a b
      rw [List.mem_cons, Prod.mk.injEq]
    have hsndM : ∀ y : Nat, y ∈ ((s, r0) :: M).map Prod.snd ↔
        y = r0 ∨ y ∈ M.map Prod.snd := by
      intro y
      rw [show ((s, r0) :: M).map Prod.snd = r0 :: M.map Prod.snd from rfl, List.mem_cons]
    rw [hpairM, hsndM]
    by_cases hvr : v = r0
    · subst hvr
      rw [hrowR]
      simp only [List.mem_singleton, eq_self_iff_true, and_true, true_or, not_true,
        and_false, false_or]
      constructor
      · exact Or.inl
      · rintro (h | h)
        · exact h
        · exact absurd (List.mem_map.mpr ⟨_, h, rfl⟩) D.r0un
    · have hvs : v ≠ s := by omega
      rw [hrowE v (by omega) hvs hvr, D.reqMem v h1 h2 hvr x]
      constructor
      · rintro (⟨hA, hB⟩ | hB)
        · exact Or.inl ⟨hA, fun h => h.elim hvr hB⟩
        · exact Or.inr (Or.inr hB)
      · rintro (⟨hA, hB⟩ | ⟨_, h⟩ | hB)
        · exact Or.inl ⟨hA, fun h => hB (Or.inr h)⟩
        · exact absurd h hvr
        · exact Or.inr hB
  · -- reqND
    intro v h1 h2
    by_cases hvr : v = r0
    · subst hvr
      rw [hrowR]
      simp
    · rw [hrowE v (by omega) (by omega) hvr]
      exact D.reqND v h1 h2
  · -- snkMem
    intro x
    have hs0 : sinkOf es cs ≠ 0 := by omega
    have hss : sinkOf es cs ≠ s := by omega
    have hsr : sinkOf es cs ≠ r0 := by omega
    rw [hrowE _ hs0 hss hsr, D.snkMem x]
    rw [show ((s, r0) :: M).map Prod.snd = r0 :: M.map Prod.snd from rfl, List.mem_cons]
    tauto
  · -- snkND
    rw [hrowE _ (by omega) (by omega) (by omega)]
    exact D.snkND
  · -- outEmpty
    intro u hu
    rw [hrowE u (by omega) (by omega) (by omega)]
    exact D.outEmpty u hu

/-- Augmentation along one inner segment of a chain: the employee s is
rerouted from its matched customer r' to the customer r0, and the defect
moves from r0 to r'. -/
lemma altStep_cons {es : List Employee} {cs : List String} {M : List (Nat × Nat)}
    {g : Graph} {r0 s r' : Nat}
    (hr1 : es.length + 1 ≤ r0) (hr2 : r0 ≤ es.length + cs.length)
    (hs1 : 1 ≤ s) (hs2 : s ≤ es.length) (hav : availB es s = true)
    (helig : eligB es cs s r0 = true) (hnmS : (s, r0) ∉ M)
    (hmm : (s, r') ∈ M) (hr0r' : r0 ≠ r') (D : DefInv es cs M r0 g) :
    DefInv es cs ((s, r0) :: M.erase (s, r')) r'
      (gAppend (gErase (gAppend (gErase g s r0) r0 s) r' s) s r') := by
  obtain ⟨_, _, hr'1, hr'2, _, heligr'⟩ := D.wf (s, r') hmm
  have hsnkN : es.length + cs.length < sinkOf es cs := by
    simp only [sinkOf]; omega
  have hgr0 : g r0 = [] := List.eq_nil_iff_forall_not_mem.mpr D.r0Mem
  have hsx : ∀ x, (s, x) ∈ M ↔ x = r' := by
    intro x
    exact ⟨fun h => fst_unique D.fstN h hmm, fun h => h ▸ hmm⟩
  have hxr'iff : ∀ x, (x, r') ∈ M ↔ x = s := by
    intro x
    exact ⟨fun h => snd_unique D.sndN h hmm, fun h => h ▸ hmm⟩
  -- rows of the updated graph
  have hrowR0 : (gAppend (gErase (gAppend (gErase g s r0) r0 s) r' s) s r') r0 = [s] := by
    rw [gAppend_other _ _ _ _ (by omega : r0 ≠ s)]
    rw [gErase_other _ _ _ _ hr0r', gAppend_same]
    rw [gErase_other _ _ _ _ (by omega : r0 ≠ s), hgr0]
    rfl
  have hrowS : (gAppend (gErase (gAppend (gErase g s r0) r0 s) r' s) s r') s =
      (g s).erase r0 ++ [r'] := by
    rw [gAppend_same]
    rw [gErase_other _ _ _ _ (by omega : s ≠ r')]
    rw [gAppend_other _ _ _ _ (by omega : s ≠ r0), gErase_same]
  have hrowR' : (gAppend (gErase (gAppend (gErase g s r0) r0 s) r' s) s r') r' =
      (g r').erase s := by
    rw [gAppend_other _ _ _ _ (by omega : r' ≠ s), gErase_same]
    rw [gAppend_other _ _ _ _ (fun h => hr0r' h.symm)]
    rw [gErase_other _ _ _ _ (by omega : r' ≠ s)]
  have hrowE : ∀ x, x ≠ r0 → x ≠ s → x ≠ r' →
      (gAppend (gErase (gAppend (gErase g s r0) r0 s) r' s) s r') x = g x := by
    intro x h0 hsx' hr'x
    rw [gAppend_other _ _ _ _ hsx', gErase_other _ _ _ _ hr'x]
    rw [gAppend_other _ _ _ _ h0, gErase_other _ _ _ _ hsx']
  -- the row of the matched customer r' before the update
  have hgr'mem : ∀ x, x ∈ g r' ↔ x = s := by
    intro x
    rw [D.reqMem r' hr'1 hr'2 (fun h => hr0r' h.symm) x]
    constructor
    · rintro (⟨_, hB⟩ | hB)
      · exact absurd (List.mem_map.mpr ⟨_, hmm, rfl⟩) hB
      · exact (hxr'iff x).mp hB
    · intro h
      exact Or.inr ((hxr'iff x).mpr h)
  -- membership in the new matching state
  have hpairM1 : ∀ a b : Nat, (a, b) ∈ (s, r0) :: M.erase (s, r') ↔
      (a = s ∧ b = r0) ∨ ((a, b) ∈ M ∧ (a, b) ≠ (s, r')) := by
    intro a b
    rw [List.mem_cons, Prod.mk.injEq, mem_erase_pair D.fstN]
  have hfstM1 : ∀ x : Nat, x ∈ ((s, r0) :: M.erase (s, r')).map Prod.fst ↔
      x ∈ M.map Prod.fst := by
    intro x
    rw [show ((s, r0) :: M.erase (s, r')).map Prod.fst =
      s :: (M.erase (s, r')).map Prod.fst from rfl, List.mem_cons]
    constructor
    · rintro (rfl | h)
      · exact List.mem_map.mpr ⟨_, hmm, rfl⟩
      · rcases List.mem_map.mp h with ⟨q, hq, rfl⟩
        exact List.mem_map.mpr ⟨q, ((mem_erase_pair D.fstN _ _).mp hq).1, rfl⟩
    · intro h
      rcases List.mem_map.mp h with ⟨q, hq, rfl⟩
      by_cases hq' : q = (s, r')
      · subst hq'
        exact Or.inl rfl
      · exact Or.inr (List.mem_map.mpr ⟨q, (mem_erase_pair D.fstN _ _).mpr ⟨hq, hq'⟩, rfl⟩)
  have hsndM1 : ∀ x : Nat, x ∈ ((s, r0) :: M.erase (s, r')).map Prod.snd ↔
      (x = r0 ∨ (x ∈ M.map Prod.snd ∧ x ≠ r')) := by
    intro x
    rw [show ((s, r0) :: M.erase (s, r')).map Prod.snd =
      r0 :: (M.erase (s, r')).map Prod.snd from rfl, List.mem_cons]
    constructor
    · rintro (rfl | h)
      · exact Or.inl rfl
      · rcases List.mem_map.mp h with ⟨q, hq, rfl⟩
        obtain ⟨hq1, hq2⟩ := (mem_erase_pair D.fstN _ _).mp hq
        refine Or.inr ⟨List.mem_map.mpr ⟨q, hq1, rfl⟩, ?_⟩
        intro hq3
        obtain ⟨a, b⟩ := q
        simp only [Prod.snd] at hq3
        subst hq3
        exact hq2 (by rw [(hxr'iff a).mp hq1])
    · rintro (rfl | ⟨h, hxr⟩)
      · exact Or.inl rfl
      · rcases List.mem_map.mp h with ⟨q, hq, rfl⟩
        refine Or.inr (List.mem_map.mpr ⟨q, (mem_erase_pair D.fstN _ _).mpr ⟨hq, ?_⟩, rfl⟩)
        intro hq'
        exact hxr (congrArg Prod.snd hq')
  have hlenM1 : ((s, r0) :: M.erase (s, r')).length = M.length := by
    rw [List.length_cons, List.length_erase_of_mem hmm]
    have : 1 ≤ M.length := List.length_pos.mpr (List.ne_nil_of_mem hmm)
    omega
  constructor
  · -- wf
    intro p hp
    rcases List.mem_cons.mp hp with rfl | hp'
    · exact ⟨hs1, hs2, hr1, hr2, hav, helig⟩
    · exact D.wf p (List.mem_of_mem_erase hp')
  · -- fstN
    rw [show ((s, r0) :: M.erase (s, r')).map Prod.fst =
      s :: (M.erase (s, r')).map Prod.fst from rfl, List.nodup_cons]
    constructor
    · intro h
      rcases List.mem_map.mp h with ⟨q, hq, hq1⟩
      obtain ⟨hq2, hq3⟩ := (mem_erase_pair D.fstN _ _).mp hq
      obtain ⟨a, b⟩ := q
      simp only [Prod.fst] at hq1
      subst hq1
      exact hq3 (by rw [(hsx b).mp hq2])
    · exact ((List.erase_sublist _ _).map Prod.fst).nodup D.fstN
  · -- sndN
    rw [show ((s, r0) :: M.erase (s, r')).map Prod.snd =
      r0 :: (M.erase (s, r')).map Prod.snd from rfl, List.nodup_cons]
    constructor
    · intro h
      rcases List.mem_map.mp h with ⟨q, hq, hq1⟩
      exact D.r0un (List.mem_map.mpr ⟨q, List.mem_of_mem_erase hq, hq1⟩)
    · exact ((List.erase_sublist _ _).map Prod.snd).nodup D.sndN
  · -- r0rng for r'
    exact ⟨hr'1, hr'2⟩
  · -- r0un for r'
    rw [hsndM1]
    rintro (h | ⟨_, h⟩)
    · exact hr0r' h.symm
    · exact h rfl
  · -- srcMem
    intro x
    rw [hrowE 0 (by omega) (by omega) (by omega), D.srcMem x, hfstM1]
  · -- srcND
    rw [hrowE 0 (by omega) (by omega) (by omega)]
    exact D.srcND
  · -- srcLen
    rw [hrowE 0 (by omega) (by omega) (by omega), hlenM1]
    exact D.srcLen
  · -- srvMem
    intro t h1 h2 x
    by_cases hts : t = s
    · subst hts
      rw [hrowS, List.mem_append, (D.srvND t h1 h2).mem_erase_iff, D.srvMem t h1 h2 x]
      rw [hpairM1, hfstM1]
      simp only [List.mem_singleton, eq_self_iff_true, true_and, Prod.mk.injEq]
      constructor
      · rintro (⟨hxr, hA, hB | hB⟩ | rfl)
        · refine ⟨hA, Or.inl ⟨hB.1, hB.2.1, hB.2.2.1, ?_⟩⟩
          rintro (h | ⟨h1', _⟩)
          · exact hxr h
          · exact hB.2.2.2 h1'
        · exact ⟨hA, Or.inr hB⟩
        · refine ⟨hav, Or.inl ⟨hr'1, hr'2, heligr', ?_⟩⟩
          rintro (h | ⟨_, h⟩)
          · exact hr0r' h.symm
          · exact h rfl
      · rintro ⟨hA, hB | hB⟩
        · by_cases hxr' : x = r'
          · exact Or.inr hxr'
          · refine Or.inl ⟨fun h => hB.2.2.2 (Or.inl h), hA,
              Or.inl ⟨hB.1, hB.2.1, hB.2.2.1, ?_⟩⟩
            intro hmem
            exact hB.2.2.2 (Or.inr ⟨hmem, fun hh => hxr' (congrArg Prod.snd hh)⟩)
        · refine Or.inl ⟨?_, hA, Or.inr hB⟩
          intro h
          omega
    · have htr0 : t ≠ r0 := by omega
      have htr' : t ≠ r' := by omega
      rw [hrowE t htr0 hts htr', D.srvMem t h1 h2 x, hpairM1, hfstM1]
      constructor
      · rintro ⟨hA, hB | hB⟩
        · refine ⟨hA, Or.inl ⟨hB.1, hB.2.1, hB.2.2.1, ?_⟩⟩
          rintro (⟨h, _⟩ | ⟨h, _⟩)
          · exact hts h
          · exact hB.2.2.2 h
        · exact ⟨hA, Or.inr hB⟩
      · rintro ⟨hA, hB | hB⟩
        · refine ⟨hA, Or.inl ⟨hB.1, hB.2.1, hB.2.2.1, ?_⟩⟩
          intro hmem
          exact hB.2.2.2 (Or.inr ⟨hmem, fun hh => hts (congrArg Prod.fst hh)⟩)
        · exact ⟨hA, Or.inr hB⟩
  · -- srvND
    intro t h1 h2
    by_cases hts : t = s
    · subst hts
      rw [hrowS]
      refine nodup_append_singleton ((D.srvND t h1 h2).erase r0) ?_
      intro hmem
      have := (D.srvMem t h1 h2 r').mp (List.mem_of_mem_erase hmem)
      rcases this.2 with hb | hb
      · exact hb.2.2.2 hmm
      · omega
    · rw [hrowE t (by omega) hts (by omega)]
      exact D.srvND t h1 h2
  · -- reqMem
    intro v h1 h2 hvr' x
    rw [hpairM1, hsndM1]
    by_cases hvr0 : v = r0
    · subst hvr0
      rw [hrowR0]
      simp only [List.mem_singleton, eq_self_iff_true, true_or, not_true, and_false,
        false_or, and_true]
      constructor
      · exact fun h => Or.inl h
      · rintro (h | ⟨h, _⟩)
        · exact h
        · exact absurd (List.mem_map.mpr ⟨_, h, rfl⟩) D.r0un
    · have hvs : v ≠ s := by omega
      rw [hrowE v hvr0 hvs hvr', D.reqMem v h1 h2 hvr0 x]
      constructor
      · rintro (⟨hA, hB⟩ | hB)
        · refine Or.inl ⟨hA, ?_⟩
          rintro (h | ⟨h, _⟩)
          · exact hvr0 h
          · exact hB h
        · exact Or.inr (Or.inr ⟨hB, fun hh => hvr' (congrArg Prod.snd hh)⟩)
      · rintro (⟨hA, hB⟩ | ⟨_, h⟩ | ⟨h, _⟩)
        · exact Or.inl ⟨hA, fun h => hB (Or.inr ⟨h, hvr'⟩)⟩
        · exact absurd h hvr0
        · exact Or.inr h
  · -- reqND
    intro v h1 h2
    by_cases hvr0 : v = r0
    · subst hvr0
      rw [hrowR0]
      simp
    · by_cases hvr' : v = r'
      · subst hvr'
        rw [hrowR']
        exact (D.reqND v h1 h2).erase s
      · rw [hrowE v hvr0 (by omega) hvr']
        exact D.reqND v h1 h2
  · -- r0Mem for r'
    intro x
    rw [hrowR', (D.reqND r' hr'1 hr'2).mem_erase_iff]
    rintro ⟨hxs, hxm⟩
    exact hxs ((hgr'mem x).mp hxm)
  · -- snkMem
    intro x
    rw [hrowE (sinkOf es cs) (by omega) (by omega) (by omega), D.snkMem x, hsndM1]
    constructor
    · rintro (h | rfl)
      · by_cases hxr' : x = r'
        · exact Or.inr hxr'
        · exact Or.inl (Or.inr ⟨h, hxr'⟩)
      · exact Or.inl (Or.inl rfl)
    · rintro ((rfl | ⟨h, _⟩) | rfl)
      · exact Or.inr rfl
      · exact Or.inl h
      · exact Or.inl (List.mem_map.mpr ⟨_, hmm, rfl⟩)
  · -- snkND
    rw [hrowE (sinkOf es cs) (by omega) (by omega) (by omega)]
    exact D.snkND
  · -- outEmpty
    intro u hu
    rw [hrowE u (by omega) (by omega) (by omega)]
    exact D.outEmpty u hu

/-- Full augmentation along an alternating chain, starting right after
the sink edge has been consumed: the matching state grows by one. -/
lemma altStep {es : List Employee} {cs : List String} :
    ∀ (n : Nat) (M : List (Nat × Nat)) (g : Graph) (r0 : Nat) (tl : List Nat),
      (r0 :: tl).length ≤ n → AltSR es cs M (r0 :: tl) → (r0 :: tl).Nodup →
      sinkOf es cs ∉ r0 :: tl → DefInv es cs M r0 g →
      ∃ M', FlowInv es cs M' (augmentPath g (r0 :: tl)) ∧ M'.length = M.length + 1 := by
  intro n
  induction n with
  | zero =>
    intro M g r0 tl hlen _ _ _ _
    simp at hlen
  | succ n ih =>
    intro M g r0 tl hlen halt hnd hsnk D
    cases halt with
    | base hr1 hr2 hs1 hs2 hav helig hnm hnf =>
      rename_i s
      exact ⟨(s, r0) :: M, altStep_base hr1 hr2 hs1 hs2 hav helig hnm hnf D⟩
    | cons hr1 hr2 hs1 hs2 hav helig hnm hmm hrec =>
      rename_i s r' rest
      have hr0r' : r0 ≠ r' := by
        have : r0 ∉ s :: r' :: rest := (List.nodup_cons.mp hnd).1
        intro h
        exact this (h ▸ (by simp : r' ∈ s :: r' :: rest))
      have hsnotin : s ∉ r' :: rest := by
        have := (List.nodup_cons.mp (List.nodup_cons.mp hnd).2).1
        exact this
      have D' := altStep_cons hr1 hr2 hs1 hs2 hav helig hnm hmm hr0r' D
      have halt' := altSR_update D.fstN hrec s r0 r' hsnotin
      have hnd' : (r' :: rest).Nodup :=
        (List.nodup_cons.mp (List.nodup_cons.mp hnd).2).2
      have hsnk' : sinkOf es cs ∉ r' :: rest := by
        intro h
        exact hsnk (List.mem_cons_of_mem _ (List.mem_cons_of_mem _ h))
      have hlen' : (r' :: rest).length ≤ n := by
        simp only [List.length_cons] at hlen ⊢
        omega
      obtain ⟨M', hInv, hlenM'⟩ := ih ((s, r0) :: M.erase (s, r'))
        (gAppend (gErase (gAppend (gErase g s r0) r0 s) r' s) s r') r' rest
        hlen' halt' hnd' hsnk' D'
      refine ⟨M', ?_, ?_⟩
      · exact hInv
      · rw [hlenM', List.length_cons, List.length_erase_of_mem hmm]
        have : 1 ≤ M.length := List.length_pos.mpr (List.ne_nil_of_mem hmm)
        omega

/-- One full augmentation step: from a bfs parent chain for the sink,
the residual update yields a graph satisfying the invariant for a
matching state with one more pair. -/
lemma augment_preserve {es : List Employee} {cs : List String} {M : List (Nat × Nat)}
    {g : Graph} {par : List (Nat × Nat)} {c : List Nat}
    (hInv : FlowInv es cs M g) (hpc : PChain g par (sinkOf es cs) c) :
    ∃ M', FlowInv es cs M' (augmentPath g c) ∧ M'.length = M.length + 1 := by
  have hsnk0 : sinkOf es cs ≠ 0 := by simp only [sinkOf]; omega
  cases hpc with
  | cons hne hnm hlk hmem hpc1 =>
    rename_i r1 c1
    obtain ⟨tail, rfl⟩ := pchain_head hpc1
    have hr1c : r1 ∈ r1 :: tail := List.mem_cons_self _ _
    -- classify the parent of the sink: an unmatched customer node
    have hr1fact : es.length + 1 ≤ r1 ∧ r1 ≤ es.length + cs.length ∧
        r1 ∉ M.map Prod.snd := by
      by_cases h0 : r1 = 0
      · subst h0
        have := (hInv.srcMem (sinkOf es cs)).mp hmem
        simp only [sinkOf] at this
        omega
      by_cases hN : r1 ≤ es.length
      · exfalso
        have := (hInv.srvMem r1 (by omega) hN (sinkOf es cs)).mp hmem
        rcases this.2 with hb | hb
        · simp only [sinkOf] at hb
          omega
        · exact hsnk0 hb.1
      by_cases hreq : r1 ≤ es.length + cs.length
      · have := (hInv.reqMem r1 (by omega) hreq (sinkOf es cs)).mp hmem
        rcases this with hb | hb
        · exact ⟨by omega, hreq, hb.2⟩
        · exfalso
          have := hInv.wf _ hb
          simp only [Prod.fst, Prod.snd, sinkOf] at this
          omega
      by_cases hs : r1 = sinkOf es cs
      · exact absurd (hs ▸ hr1c) hnm
      · exfalso
        have hgt : sinkOf es cs < r1 := by
          simp only [sinkOf] at hs hreq ⊢
          omega
        rw [hInv.outEmpty r1 hgt] at hmem
        simp at hmem
    obtain ⟨hr11, hr12, hr1un⟩ := hr1fact
    have hr1snk : r1 ≠ sinkOf es cs := by simp only [sinkOf] at hr12 ⊢; omega
    -- the graph after consuming the sink edge of r1
    have hD : DefInv es cs M r1 (gAppend (gErase g r1 (sinkOf es cs)) (sinkOf es cs) r1) := by
      have hrowR1 : (gAppend (gErase g r1 (sinkOf es cs)) (sinkOf es cs) r1) r1 =
          (g r1).erase (sinkOf es cs) := by
        rw [gAppend_other _ _ _ _ hr1snk, gErase_same]
      have hrowSnk : (gAppend (gErase g r1 (sinkOf es cs)) (sinkOf es cs) r1)
          (sinkOf es cs) = g (sinkOf es cs) ++ [r1] := by
        rw [gAppend_same, gErase_other _ _ _ _ (fun h => hr1snk h.symm)]
      have hrowE : ∀ x, x ≠ r1 → x ≠ sinkOf es cs →
          (gAppend (gErase g r1 (sinkOf es cs)) (sinkOf es cs) r1) x = g x := by
        intro x h1 h2
        rw [gAppend_other _ _ _ _ h2, gErase_other _ _ _ _ h1]
      constructor
      · exact hInv.wf
      · exact hInv.fstN
      · exact hInv.sndN
      · exact ⟨hr11, hr12⟩
      · exact hr1un
      · intro x
        rw [hrowE 0 (by omega) (by omega)]
        exact hInv.srcMem x
      · rw [hrowE 0 (by omega) (by omega)]
        exact hInv.srcND
      · rw [hrowE 0 (by omega) (by omega)]
        exact hInv.srcLen
      · intro s h1 h2 x
        rw [hrowE s (by omega) (by simp only [sinkOf]; omega)]
        exact hInv.srvMem s h1 h2 x
      · intro s h1 h2
        rw [hrowE s (by omega) (by simp only [sinkOf]; omega)]
        exact hInv.srvND s h1 h2
      · intro v h1 h2 hvr1 x
        rw [hrowE v hvr1 (by simp only [sinkOf]; omega)]
        exact hInv.reqMem v h1 h2 x
      · intro v h1 h2
        by_cases hvr1 : v = r1
        · subst hvr1
          rw [hrowR1]
          exact (hInv.reqND v h1 h2).erase _
        · rw [hrowE v hvr1 (by simp only [sinkOf]; omega)]
          exact hInv.reqND v h1 h2
      · intro x
        rw [hrowR1, (hInv.reqND r1 hr11 hr12).mem_erase_iff]
        rintro ⟨hxs, hxm⟩
        rcases (hInv.reqMem r1 hr11 hr12 x).mp hxm with hb | hb
        · exact hxs hb.1
        · exact hr1un (List.mem_map.mpr ⟨_, hb, rfl⟩)
      · intro x
        rw [hrowSnk, List.mem_append, hInv.snkMem x]
        simp only [List.mem_singleton]
      · rw [hrowSnk]
        refine nodup_append_singleton hInv.snkND ?_
        intro h
        exact hr1un ((hInv.snkMem r1).mp h)
      · intro u hu
        have hu' : es.length + cs.length + 1 < u := by
          simpa only [sinkOf] using hu
        rw [hrowE u (by omega) (by simp only [sinkOf]; omega)]
        exact hInv.outEmpty u hu
    have halt : AltSR es cs M (r1 :: tail) :=
      chain_alt hInv _ (r1 :: tail).length r1 (r1 :: tail) le_rfl hpc1
        (fun h => hnm h) hr11 hr12
    exact altStep (r1 :: tail).length M _ r1 tail le_rfl halt (pchain_nodup hpc1)
      (fun h => hnm h) hD

/-- The full Ford-Fulkerson loop: starting from a graph satisfying the
invariant, it terminates within (number of employees) - (current
matching size) augmentations, never errors, adds one unit of flow per
augmentation, and its final graph satisfies the invariant together with
a closed bfs certificate that no augmenting path remains. -/
lemma ffLoop_spec {es : List Employee} {cs : List String} :
    ∀ (fuel : Nat) (M : List (Nat × Nat)) (g : Graph) (flow : Nat),
      FlowInv es cs M g → es.length + 1 ≤ fuel + M.length →
      ∃ gF MF d V,
        ffLoop (sinkOf es cs) (es.length + cs.length + 3) (es.length + cs.length + 3)
          fuel g flow = some (gF, flow + d) ∧
        FlowInv es cs MF gF ∧ MF.length = M.length + d ∧
        BfsClosed gF (sinkOf es cs) V := by
  intro fuel
  induction fuel with
  | zero =>
    intro M g flow hInv hfuel
    exfalso
    have := flowInv_length_le es cs M g hInv
    omega
  | succ fuel ih =>
    intro M g flow hInv hfuel
    have hsnk0 : sinkOf es cs ≠ 0 := by simp only [sinkOf]; omega
    have hb0 : 0 < sinkOf es cs + 1 := by omega
    have hbfuel : sinkOf es cs + 1 < es.length + cs.length + 3 := by
      simp only [sinkOf]; omega
    obtain ⟨found, parOut, visOut, hbfs, hfa, htr⟩ :=
      bfs_spec g (sinkOf es cs) (sinkOf es cs + 1) (es.length + cs.length + 3)
        (flowInv_bounded es cs M g hInv) hsnk0 hb0 hbfuel
    cases found with
    | false =>
      refine ⟨g, M, 0, visOut, ?_, hInv, by omega, hfa rfl⟩
      rw [ffLoop, hbfs]
      simp
    | true =>
      obtain ⟨c, hc, hcnd, hclen⟩ := htr rfl
      have hwlen : c.length ≤ es.length + cs.length + 3 := by
        simp only [sinkOf] at hclen
        omega
      have hpf := pathFlowWalk_spec hc hsnk0 (es.length + cs.length + 3) hwlen
      have haw := augmentWalk_eq hc g (es.length + cs.length + 3)
        (pchain_edges hc) hwlen
      obtain ⟨M1, hInv1, hlen1⟩ := augment_preserve hInv hc
      obtain ⟨gF, MF, d', V, hloop, hInvF, hlenF, hV⟩ :=
        ih M1 (augmentPath g c) (flow + 1) hInv1 (by omega)
      refine ⟨gF, MF, d' + 1, V, ?_, hInvF, by omega, hV⟩
      rw [ffLoop, hbfs]
      simp only []
      rw [hpf, haw]
      simp only []
      rw [show flow + (d' + 1) = flow + 1 + d' from by omega]
      exact hloop

/-! ## Correctness of the match extraction -/

/-- The customer node matched to employee node i, if any. -/
def matchedTo (M : List (Nat × Nat)) (i : Nat) : Option Nat :=
  (M.find? (fun p => p.1 == i)).map Prod.snd

/-- Name of the customer behind node v. -/
def nameOfNode (cs : List String) (N v : Nat) : String :=
  ((cs.get? (v - N - 1)).getD "")

/-- The effect of the extraction loop on one employee. -/
def applyMatch (M : List (Nat × Nat)) (cs : List String) (N i : Nat)
    (e : Employee) : Employee :=
  if e.available then
    match matchedTo M i with
    | some v => { e with assigned_customer := some (nameOfNode cs N v) }
    | none => e
  else e

/-- The effect of the extraction loop on the employee list. -/
def applyAll (M : List (Nat × Nat)) (cs : List String) (N : Nat) :
    Nat → List Employee → List Employee
  | _, [] => []
  | i, e :: rest => applyMatch M cs N i e :: applyAll M cs N (i + 1) rest

/-- The list of (customer name, employee index) entries written into the
matches dict by the extraction loop, in write order. -/
def hitsList (M : List (Nat × Nat)) (cs : List String) (N : Nat) :
    Nat → List Employee → List (String × Nat)
  | _, [] => []
  | i, e :: rest =>
    (if e.available then
      match matchedTo M i with
      | some v => [(nameOfNode cs N v, i)]
      | none => []
    else []) ++ hitsList M cs N (i + 1) rest

lemma matchedTo_some {M : List (Nat × Nat)} {i v : Nat}
    (hfstN : (M.map Prod.fst).Nodup) (h : (i, v) ∈ M) : matchedTo M i = some v := by
  unfold matchedTo
  cases hf : M.find? (fun p => p.1 == i) with
  | none =>
    exfalso
    have := List.find?_eq_none.mp hf (i, v) h
    simp at this
  | some p =>
    have hp1 := List.find?_some hf
    have hp2 := List.mem_of_find?_eq_some hf
    simp only [beq_iff_eq] at hp1
    obtain ⟨a, b⟩ := p
    simp only [Prod.fst] at hp1
    subst hp1
    simp only [Option.map_some', Prod.snd]
    rw [fst_unique hfstN hp2 h]

lemma matchedTo_none {M : List (Nat × Nat)} {i : Nat}
    (h : ∀ v, (i, v) ∉ M) : matchedTo M i = none := by
  unfold matchedTo
  cases hf : M.find? (fun p => p.1 == i) with
  | none => rfl
  | some p =>
    exfalso
    have hp1 := List.find?_some hf
    have hp2 := List.mem_of_find?_eq_some hf
    simp only [beq_iff_eq] at hp1
    obtain ⟨a, b⟩ := p
    simp only [Prod.fst] at hp1
    subst hp1
    exact h b hp2

lemma matchedTo_mem {M : List (Nat × Nat)} {i v : Nat}
    (h : matchedTo M i = some v) : (i, v) ∈ M := by
  unfold matchedTo at h
  cases hf : M.find? (fun p => p.1 == i) with
  | none => rw [hf] at h; simp at h
  | some p =>
    rw [hf] at h
    have hp1 := List.find?_some hf
    have hp2 := List.mem_of_find?_eq_some hf
    simp only [beq_iff_eq] at hp1
    obtain ⟨a, b⟩ := p
    simp only [Prod.fst] at hp1
    simp only [Option.map_some', Prod.snd, Option.some.injEq] at h
    subst hp1
    subst h
    exact hp2

/-- Under the flow invariant, the extraction test of line 110 fires for
employee i exactly at its matched customer node. -/
lemma hit_iff {es : List Employee} {cs : List String} {M : List (Nat × Nat)}
    {g : Graph} (hInv : FlowInv es cs M g) (i : Nat) (h1 : 1 ≤ i)
    (h2 : i ≤ es.length) :
    ∀ v, (i ∈ g v ∧ es.length < v) ↔ (i, v) ∈ M := by
  intro v
  constructor
  · rintro ⟨hmem, hv⟩
    by_cases hreq : v ≤ es.length + cs.length
    · rcases (hInv.reqMem v (by omega) hreq i).mp hmem with hb | hb
      · exfalso
        simp only [sinkOf] at hb
        omega
      · exact hb
    · exfalso
      by_cases hsnk : v = sinkOf es cs
      · subst hsnk
        have := (hInv.snkMem i).mp hmem
        rcases List.mem_map.mp this with ⟨p, hp, rfl⟩
        have := hInv.wf p hp
        omega
      · have hgt : sinkOf es cs < v := by
          simp only [sinkOf] at hsnk ⊢
          omega
        rw [hInv.outEmpty v hgt] at hmem
        simp at hmem
  · intro hp
    have hw := hInv.wf (i, v) hp
    simp only [Prod.fst, Prod.snd] at hw
    refine ⟨?_, by omega⟩
    rw [hInv.reqMem v (by omega) (by omega) i]
    exact Or.inr hp

lemma extractOne_none {g : Graph} {cs : List String} {N i : Nat} :
    ∀ (vs : List Nat) (e : Employee) (ms : List (String × Nat)) (um : List String),
      (∀ v ∈ vs, ¬(i ∈ g v ∧ N < v)) →
      extractOne g cs N i vs e ms um = some (e, ms, um) := by
  intro vs
  induction vs with
  | nil => intro e ms um _; rfl
  | cons v rest ih =>
    intro e ms um hnone
    rw [extractOne, if_neg (hnone v (List.mem_cons_self _ _))]
    exact ih e ms um (fun w hw => hnone w (List.mem_cons_of_mem _ hw))

lemma extractOne_hit {g : Graph} {cs : List String} {N i v0 : Nat} {c0 : String} :
    ∀ (vs : List Nat) (e : Employee) (ms : List (String × Nat)) (um : List String),
      vs.Nodup → v0 ∈ vs →
      (∀ v, (i ∈ g v ∧ N < v) ↔ v = v0) →
      cs.get? (v0 - N - 1) = some c0 →
      e.can_serve c0 = true →
      extractOne g cs N i vs e ms um =
        some ({ e with assigned_customer := some c0 }, dinsert c0 i ms,
          if c0 ∈ um then um.erase c0 else um) := by
  intro vs
  induction vs with
  | nil =>
    intro e ms um _ hv0 _ _ _
    simp at hv0
  | cons v rest ih =>
    intro e ms um hnd hv0 hhit hc0 hcs
    by_cases hvv : v = v0
    · subst hvv
      rw [extractOne, if_pos ((hhit v).mpr rfl), hc0]
      have hassign : (e.assign_customer c0).1 = { e with assigned_customer := some c0 } := by
        rw [Employee.assign_customer, if_pos hcs]
      show extractOne g cs N i rest (e.assign_customer c0).1 (dinsert c0 i ms)
        (if c0 ∈ um then um.erase c0 else um) = _
      rw [hassign]
      refine extractOne_none rest _ _ _ ?_
      intro w hw hPw
      have := (hhit w).mp hPw
      subst this
      exact (List.nodup_cons.mp hnd).1 hw
    · rw [extractOne, if_neg ?_]
      · refine ih e ms um (List.nodup_cons.mp hnd).2 ?_ hhit hc0 hcs
        rcases List.mem_cons.mp hv0 with h | h
        · exact absurd h.symm hvv
        · exact h
      · intro hP
        exact hvv ((hhit v).mp hP)

lemma eligB_inv {es : List Employee} {cs : List String} {s v : Nat} {e : Employee}
    (he : es.get? (s - 1) = some e) (h : eligB es cs s v = true) :
    ∃ c, cs.get? (v - es.length - 1) = some c ∧
      e.allowed_customers.contains c = true := by
  rw [eligB, he] at h
  cases hc : cs.get? (v - es.length - 1) with
  | none => rw [hc] at h; simp at h
  | some c =>
    rw [hc] at h
    exact ⟨c, rfl, h⟩

lemma extractAll_spec {es : List Employee} {cs : List String} {M : List (Nat × Nat)}
    {g : Graph} (hInv : FlowInv es cs M g) :
    ∀ (L : List Employee) (i0 : Nat) (ms : List (String × Nat)) (um : List String),
      1 ≤ i0 →
      (∀ (k : Nat) (e : Employee), L.get? k = some e →
        es.get? (i0 + k - 1) = some e ∧ e.assigned_customer = none) →
      extractAll g cs es.length i0 L ms um =
        some (applyAll M cs es.length i0 L,
          (hitsList M cs es.length i0 L).foldl (fun acc p => dinsert p.1 p.2 acc) ms,
          (hitsList M cs es.length i0 L).foldl
            (fun acc p => if p.1 ∈ acc then acc.erase p.1 else acc) um) := by
  intro L
  induction L with
  | nil =>
    intro i0 ms um _ _
    rfl
  | cons e rest ih =>
    intro i0 ms um hi0 hL
    obtain ⟨he, hass⟩ := hL 0 e rfl
    have hidx : i0 + 0 - 1 = i0 - 1 := by omega
    rw [hidx] at he
    have hi0N : i0 ≤ es.length := by
      rcases List.get?_eq_some.mp he with ⟨hh, _⟩
      omega
    have hLrest : ∀ (k : Nat) (e' : Employee), rest.get? k = some e' →
        es.get? (i0 + 1 + k - 1) = some e' ∧ e'.assigned_customer = none := by
      intro k e' hk
      have := hL (k + 1) e' (by simpa using hk)
      rwa [show i0 + (k + 1) - 1 = i0 + 1 + k - 1 from by omega] at this
    have hhit0 := hit_iff hInv i0 hi0 hi0N
    by_cases hav : e.available
    · cases hmt : matchedTo M i0 with
      | some v0 =>
        have hpair := matchedTo_mem hmt
        have hw := hInv.wf (i0, v0) hpair
        simp only [Prod.fst, Prod.snd] at hw
        obtain ⟨c0, hc0, hcont⟩ := eligB_inv he hw.2.2.2.2.2
        have hname : nameOfNode cs es.length v0 = c0 := by
          unfold nameOfNode
          rw [hc0]
          rfl
        have hserve : e.can_serve c0 = true := by
          rw [Employee.can_serve, hcont, hass]
          rfl
        have hhit : ∀ v, (i0 ∈ g v ∧ es.length < v) ↔ v = v0 := by
          intro v
          rw [hhit0 v]
          exact ⟨fun h => fst_unique hInv.fstN h hpair, fun h => h ▸ hpair⟩
        have hv0mem : v0 ∈ List.range (es.length + cs.length + 2) := by
          rw [List.mem_range]
          omega
        have hone := extractOne_hit (List.range (es.length + cs.length + 2))
          e ms um (List.nodup_range _) hv0mem hhit hc0 hserve
        rw [extractAll, if_pos hav, hone]
        show (match extractAll g cs es.length (i0 + 1) rest (dinsert c0 i0 ms)
            (if c0 ∈ um then um.erase c0 else um) with
          | none => none
          | some (res, ms'', um'') =>
            some ({ e with assigned_customer := some c0 } :: res, ms'', um'')) = _
        rw [ih (i0 + 1) (dinsert c0 i0 ms) (if c0 ∈ um then um.erase c0 else um)
          (by omega) hLrest]
        show some _ = _
        rw [show applyAll M cs es.length i0 (e :: rest) =
          applyMatch M cs es.length i0 e :: applyAll M cs es.length (i0 + 1) rest from rfl]
        rw [show applyMatch M cs es.length i0 e =
          { e with assigned_customer := some (nameOfNode cs es.length v0) } from by
            rw [applyMatch, if_pos hav, hmt]]
        rw [hname]
        rw [show hitsList M cs es.length i0 (e :: rest) =
          (nameOfNode cs es.length v0, i0) :: hitsList M cs es.length (i0 + 1) rest from by
            rw [hitsList, if_pos hav, hmt]
            rfl]
        rw [hname]
        rfl
      | none =>
        have hnone : ∀ v, (i0, v) ∉ M := by
          intro v hv
          rw [matchedTo_some hInv.fstN hv] at hmt
          simp at hmt
        have hone := @extractOne_none g cs es.length i0
          (List.range (es.length + cs.length + 2)) e ms um
          (fun v _ hP => hnone v ((hhit0 v).mp hP))
        rw [extractAll, if_pos hav, hone]
        show (match extractAll g cs es.length (i0 + 1) rest ms um with
          | none => none
          | some (res, ms'', um'') => some (e :: res, ms'', um'')) = _
        rw [ih (i0 + 1) ms um (by omega) hLrest]
        show some _ = _
        rw [show applyAll M cs es.length i0 (e :: rest) =
          applyMatch M cs es.length i0 e :: applyAll M cs es.length (i0 + 1) rest from rfl]
        rw [show applyMatch M cs es.length i0 e = e from by
          rw [applyMatch, if_pos hav, hmt]]
        rw [show hitsList M cs es.length i0 (e :: rest) =
          hitsList M cs es.length (i0 + 1) rest from by
            rw [hitsList, if_pos hav, hmt]
            rfl]
    · rw [extractAll, if_neg hav]
      rw [ih (i0 + 1) ms um (by omega) hLrest]
      show some _ = _
      rw [show applyAll M cs es.length i0 (e :: rest) =
        applyMatch M cs es.length i0 e :: applyAll M cs es.length (i0 + 1) rest from rfl]
      rw [show applyMatch M cs es.length i0 e = e from by
        rw [applyMatch, if_neg hav]]
      rw [show hitsList M cs es.length i0 (e :: rest) =
        hitsList M cs es.length (i0 + 1) rest from by
          rw [hitsList, if_neg hav]
          rfl]

lemma hits_forward {M : List (Nat × Nat)} {cs : List String} {N : Nat} :
    ∀ (L : List Employee) (i0 : Nat) (c : String) (i : Nat),
      (c, i) ∈ hitsList M cs N i0 L →
      ∃ v, (i, v) ∈ M ∧ c = nameOfNode cs N v ∧ i0 ≤ i ∧ i < i0 + L.length := by
  intro L
  induction L with
  | nil =>
    intro i0 c i h
    simp [hitsList] at h
  | cons e rest ih =>
    intro i0 c i h
    rw [hitsList, List.mem_append] at h
    rcases h with h | h
    · by_cases hav : e.available
      · rw [if_pos hav] at h
        cases hmt : matchedTo M i0 with
        | some v0 =>
          rw [hmt] at h
          simp only [List.mem_singleton, Prod.mk.injEq] at h
          obtain ⟨rfl, rfl⟩ := h
          exact ⟨v0, matchedTo_mem hmt, rfl, le_rfl, by simp⟩
        | none =>
          rw [hmt] at h
          simp at h
      · rw [if_neg hav] at h
        simp at h
    · obtain ⟨v, hv, hc, hi1, hi2⟩ := ih (i0 + 1) c i h
      exact ⟨v, hv, hc, by omega, by simp only [List.length_cons]; omega⟩

lemma hits_complete {es : List Employee} {cs : List String} {M : List (Nat × Nat)}
    {g : Graph} (hInv : FlowInv es cs M g) :
    ∀ (L : List Employee) (i0 : Nat),
      (∀ (k : Nat) (e : Employee), L.get? k = some e → es.get? (i0 + k - 1) = some e) →
      1 ≤ i0 →
      ∀ (i v : Nat), (i, v) ∈ M → i0 ≤ i → i < i0 + L.length →
        (nameOfNode cs es.length v, i) ∈ hitsList M cs es.length i0 L := by
  intro L
  induction L with
  | nil =>
    intro i0 _ _ i v _ h1 h2
    simp at h2
    omega
  | cons e rest ih =>
    intro i0 hL hi0 i v hpair h1 h2
    rw [hitsList, List.mem_append]
    by_cases hii0 : i = i0
    · subst hii0
      obtain he := hL 0 e rfl
      rw [show i + 0 - 1 = i - 1 from by omega] at he
      have hw := hInv.wf (i, v) hpair
      simp only [Prod.fst, Prod.snd] at hw
      have hav : e.available = true := by
        have := hw.2.2.2.2.1
        rwa [availB_eq es i e he] at this
      left
      rw [if_pos hav, matchedTo_some hInv.fstN hpair]
      simp
    · right
      refine ih (i0 + 1) ?_ (by omega) i v hpair (by omega)
        (by simp only [List.length_cons] at h2; omega)
      intro k e' hk
      have := hL (k + 1) e' (by simpa using hk)
      rwa [show i0 + (k + 1) - 1 = i0 + 1 + k - 1 from by omega] at this

lemma hits_snd_lb {M : List (Nat × Nat)} {cs : List String} {N : Nat} :
    ∀ (L : List Employee) (i0 : Nat) (p : String × Nat),
      p ∈ hitsList M cs N i0 L → i0 ≤ p.2 := by
  intro L i0 p h
  obtain ⟨v, _, _, h1, _⟩ := hits_forward L i0 p.1 p.2 (by simpa using h)
  exact h1

lemma hits_snd_nodup {M : List (Nat × Nat)} {cs : List String} {N : Nat} :
    ∀ (L : List Employee) (i0 : Nat),
      ((hitsList M cs N i0 L).map Prod.snd).Nodup := by
  intro L
  induction L with
  | nil =>
    intro i0
    simp [hitsList]
  | cons e rest ih =>
    intro i0
    rw [hitsList]
    by_cases hav : e.available
    · rw [if_pos hav]
      cases hmt : matchedTo M i0 with
      | some v0 =>
        rw [List.map_append, List.nodup_append]
        refine ⟨by simp, ih (i0 + 1), ?_⟩
        intro a ha hb
        simp only [List.map_cons, List.map_nil, List.mem_singleton, Prod.snd] at ha
        rcases List.mem_map.mp hb with ⟨p, hp, hp2⟩
        have h3 := hits_snd_lb rest (i0 + 1) p hp
        omega
      | none =>
        simpa using ih (i0 + 1)
    · rw [if_neg hav]
      simpa using ih (i0 + 1)

/-- Membership in the product of all dinsert writes: keys stay keys. -/
lemma dinsert_fst_mem (c : String) (i : Nat) :
    ∀ (ms : List (String × Nat)) (x : String),
      x ∈ (dinsert c i ms).map Prod.fst ↔ x = c ∨ x ∈ ms.map Prod.fst := by
  intro ms
  induction ms with
  | nil =>
    intro x
    simp [dinsert]
  | cons p rest ih =>
    intro x
    obtain ⟨c', i'⟩ := p
    rw [dinsert]
    by_cases hc : c' = c
    · rw [if_pos hc]
      rw [show ((c, i) :: rest).map Prod.fst = c :: rest.map Prod.fst from rfl,
        show ((c', i') :: rest).map Prod.fst = c' :: rest.map Prod.fst from rfl,
        List.mem_cons, List.mem_cons, hc]
      tauto
    · rw [if_neg hc]
      rw [show ((c', i') :: dinsert c i rest).map Prod.fst =
        c' :: (dinsert c i rest).map Prod.fst from rfl,
        show ((c', i') :: rest).map Prod.fst = c' :: rest.map Prod.fst from rfl,
        List.mem_cons, List.mem_cons, ih x]
      tauto

/-- A dinsert with a fresh key appends the entry. -/
lemma dinsert_fresh (c : String) (i : Nat) :
    ∀ (ms : List (String × Nat)), c ∉ ms.map Prod.fst →
      dinsert c i ms = ms ++ [(c, i)] := by
  intro ms
  induction ms with
  | nil => intro _; rfl
  | cons p rest ih =>
    intro hc
    obtain ⟨c', i'⟩ := p
    have hmap : ((c', i') :: rest).map Prod.fst = c' :: rest.map Prod.fst := rfl
    have h1 : c' ≠ c := by
      intro h
      exact hc (by rw [hmap]; exact List.mem_cons.mpr (Or.inl h.symm))
    have h2 : c ∉ rest.map Prod.fst := by
      intro h
      exact hc (by rw [hmap]; exact List.mem_cons.mpr (Or.inr h))
    rw [dinsert, if_neg h1, ih h2]
    rfl

/-- Folding dinserts whose keys are pairwise fresh is plain appending. -/
lemma foldl_dinsert_fresh :
    ∀ (items acc : List (String × Nat)),
      (items.map Prod.fst).Nodup →
      (∀ c ∈ items.map Prod.fst, c ∉ acc.map Prod.fst) →
      items.foldl (fun ms p => dinsert p.1 p.2 ms) acc = acc ++ items := by
  intro items
  induction items with
  | nil =>
    intro acc _ _
    simp
  | cons p rest ih =>
    intro acc hnd hfresh
    obtain ⟨c, i⟩ := p
    have hmap : ((c, i) :: rest).map Prod.fst = c :: rest.map Prod.fst := rfl
    rw [hmap, List.nodup_cons] at hnd
    have hstep : dinsert c i acc = acc ++ [(c, i)] :=
      dinsert_fresh c i acc (hfresh c (by rw [hmap]; exact List.mem_cons_self _ _))
    have hfresh' : ∀ c' ∈ rest.map Prod.fst, c' ∉ (acc ++ [(c, i)]).map Prod.fst := by
      intro c' hc' hmem
      rw [List.map_append, List.mem_append] at hmem
      rcases hmem with h | h
      · exact hfresh c' (by rw [hmap]; exact List.mem_cons_of_mem _ hc') h
      · have h' : c' = c := by simpa using h
        exact hnd.1 (h' ▸ hc')
    rw [List.foldl_cons]
    show rest.foldl (fun ms p => dinsert p.1 p.2 ms) (dinsert c i acc) = _
    rw [hstep, ih (acc ++ [(c, i)]) hnd.2 hfresh']
    simp

/-- Folding the unmatched-set erasures: the result is a nodup subset of
the start, free of all erased names. -/
lemma foldl_erase_spec :
    ∀ (items : List (String × Nat)) (um : List String), um.Nodup →
      (items.foldl (fun acc p => if p.1 ∈ acc then acc.erase p.1 else acc) um).Nodup ∧
      (∀ x ∈ items.foldl (fun acc p => if p.1 ∈ acc then acc.erase p.1 else acc) um,
        x ∈ um) ∧
      (∀ p ∈ items,
        p.1 ∉ items.foldl (fun acc p => if p.1 ∈ acc then acc.erase p.1 else acc) um) := by
  intro items
  induction items with
  | nil =>
    intro um hnd
    exact ⟨hnd, fun x h => h, fun p hp => by simp at hp⟩
  | cons q rest ih =>
    intro um hnd
    rw [List.foldl_cons]
    have hum1 : (if q.1 ∈ um then um.erase q.1 else um).Nodup := by
      by_cases h : q.1 ∈ um
      · rw [if_pos h]; exact hnd.erase _
      · rw [if_neg h]; exact hnd
    have hsub1 : ∀ x ∈ (if q.1 ∈ um then um.erase q.1 else um), x ∈ um := by
      intro x hx
      by_cases h : q.1 ∈ um
      · rw [if_pos h] at hx
        exact List.mem_of_mem_erase hx
      · rwa [if_neg h] at hx
    have hq1 : q.1 ∉ (if q.1 ∈ um then um.erase q.1 else um) := by
      by_cases h : q.1 ∈ um
      · rw [if_pos h, hnd.mem_erase_iff]
        rintro ⟨hne, _⟩
        exact hne rfl
      · rwa [if_neg h]
    obtain ⟨h1, h2, h3⟩ := ih _ hum1
    refine ⟨h1, fun x hx => hsub1 x (h2 x hx), ?_⟩
    intro p hp
    rcases List.mem_cons.mp hp with rfl | hp'
    · intro hmem
      exact hq1 (h2 _ hmem)
    · exact h3 p hp'

lemma nameOfNode_inj {cs : List String} (hcs : cs.Nodup) {N v v' : Nat}
    (h1 : N + 1 ≤ v) (h2 : v ≤ N + cs.length) (h1' : N + 1 ≤ v')
    (h2' : v' ≤ N + cs.length)
    (heq : nameOfNode cs N v = nameOfNode cs N v') : v = v' := by
  have hk : v - N - 1 < cs.length := by omega
  have hk' : v' - N - 1 < cs.length := by omega
  unfold nameOfNode at heq
  rw [List.get?_eq_get hk, List.get?_eq_get hk'] at heq
  simp only [Option.getD_some] at heq
  have := (List.Nodup.get_inj_iff hcs).mp heq
  have := Fin.val_eq_of_eq this
  simp only [] at this
  omega

lemma hits_fst_nodup {es : List Employee} {cs : List String} {M : List (Nat × Nat)}
    {g : Graph} (hInv : FlowInv es cs M g) (hcs : cs.Nodup) :
    ∀ (L : List Employee) (i0 : Nat),
      ((hitsList M cs es.length i0 L).map Prod.fst).Nodup := by
  intro L
  induction L with
  | nil =>
    intro i0
    simp [hitsList]
  | cons e rest ih =>
    intro i0
    rw [hitsList]
    by_cases hav : e.available
    · rw [if_pos hav]
      cases hmt : matchedTo M i0 with
      | some v0 =>
        rw [List.map_append, List.nodup_append]
        refine ⟨by simp, ih (i0 + 1), ?_⟩
        intro a ha hb
        have ha' : a = nameOfNode cs es.length v0 := by simpa using ha
        rcases List.mem_map.mp hb with ⟨p, hp, hp2⟩
        obtain ⟨v', hv'M, hv'n, hge, _⟩ := hits_forward rest (i0 + 1) p.1 p.2
          (by rwa [show (p.1, p.2) = p from rfl])
        have hp0 := matchedTo_mem hmt
        have hw0 := hInv.wf (i0, v0) hp0
        have hw' := hInv.wf (p.2, v') hv'M
        simp only [Prod.fst, Prod.snd] at hw0 hw'
        have hvv : v0 = v' := by
          rw [hp2, ha'] at hv'n
          exact nameOfNode_inj hcs (by omega) (by omega) (by omega) (by omega) hv'n
        subst hvv
        have : i0 = p.2 := snd_unique hInv.sndN hp0 hv'M
        omega
      | none =>
        simpa using ih (i0 + 1)
    · rw [if_neg hav]
      simpa using ih (i0 + 1)

lemma hits_snd_mem_iff {es : List Employee} {cs : List String} {M : List (Nat × Nat)}
    {g : Graph} (hInv : FlowInv es cs M g) :
    ∀ i, i ∈ (hitsList M cs es.length 1 es).map Prod.snd ↔ i ∈ M.map Prod.fst := by
  intro i
  constructor
  · intro h
    rcases List.mem_map.mp h with ⟨p, hp, rfl⟩
    obtain ⟨v, hv, _, _, _⟩ := hits_forward es 1 p.1 p.2
      (by rwa [show (p.1, p.2) = p from rfl])
    exact List.mem_map.mpr ⟨(p.2, v), hv, rfl⟩
  · intro h
    rcases List.mem_map.mp h with ⟨p, hp, rfl⟩
    obtain ⟨a, b⟩ := p
    simp only [Prod.fst]
    have hw := hInv.wf (a, b) hp
    simp only [Prod.fst, Prod.snd] at hw
    have := hits_complete hInv es 1 ?_ le_rfl a b hp (by omega) (by omega)
    · exact List.mem_map.mpr ⟨(nameOfNode cs es.length b, a), this, rfl⟩
    · intro k e hk
      rwa [show 1 + k - 1 = k from by omega]

lemma hits_length {es : List Employee} {cs : List String} {M : List (Nat × Nat)}
    {g : Graph} (hInv : FlowInv es cs M g) :
    (hitsList M cs es.length 1 es).length = M.length := by
  have h1 : ((hitsList M cs es.length 1 es).map Prod.snd).length =
      (M.map Prod.fst).length := by
    refine List.Perm.length_eq ?_
    rw [List.perm_ext_iff_of_nodup (hits_snd_nodup es 1) hInv.fstN]
    exact hits_snd_mem_iff hInv
  simpa using h1

lemma dinsert_fst_nodup (c : String) (i : Nat) :
    ∀ (ms : List (String × Nat)), (ms.map Prod.fst).Nodup →
      ((dinsert c i ms).map Prod.fst).Nodup := by
  intro ms
  induction ms with
  | nil =>
    intro _
    simp [dinsert]
  | cons p rest ih =>
    intro hnd
    obtain ⟨c', i'⟩ := p
    rw [show ((c', i') :: rest).map Prod.fst = c' :: rest.map Prod.fst from rfl,
      List.nodup_cons] at hnd
    rw [dinsert]
    by_cases hc : c' = c
    · rw [if_pos hc]
      rw [show ((c, i) :: rest).map Prod.fst = c :: rest.map Prod.fst from rfl,
        List.nodup_cons]
      exact ⟨hc ▸ hnd.1, hnd.2⟩
    · rw [if_neg hc]
      rw [show ((c', i') :: dinsert c i rest).map Prod.fst =
        c' :: (dinsert c i rest).map Prod.fst from rfl, List.nodup_cons]
      refine ⟨?_, ih hnd.2⟩
      intro h
      rcases (dinsert_fst_mem c i rest c').mp h with h' | h'
      · exact hc h'
      · exact hnd.1 h'

lemma dinsert_snd_subset (c : String) (i : Nat) :
    ∀ (ms : List (String × Nat)) (x : Nat),
      x ∈ (dinsert c i ms).map Prod.snd → x = i ∨ x ∈ ms.map Prod.snd := by
  intro ms
  induction ms with
  | nil =>
    intro x h
    simp [dinsert] at h
    exact Or.inl h
  | cons p rest ih =>
    intro x h
    obtain ⟨c', i'⟩ := p
    rw [dinsert] at h
    by_cases hc : c' = c
    · rw [if_pos hc] at h
      rw [show ((c, i) :: rest).map Prod.snd = i :: rest.map Prod.snd from rfl,
        List.mem_cons] at h
      rcases h with h | h
      · exact Or.inl h
      · exact Or.inr (by
          rw [show ((c', i') :: rest).map Prod.snd = i' :: rest.map Prod.snd from rfl]
          exact List.mem_cons_of_mem _ h)
    · rw [if_neg hc] at h
      rw [show ((c', i') :: dinsert c i rest).map Prod.snd =
        i' :: (dinsert c i rest).map Prod.snd from rfl, List.mem_cons] at h
      rcases h with h | h
      · exact Or.inr (by
          rw [show ((c', i') :: rest).map Prod.snd = i' :: rest.map Prod.snd from rfl]
          exact h ▸ List.mem_cons_self _ _)
      · rcases ih x h with h' | h'
        · exact Or.inl h'
        · exact Or.inr (by
            rw [show ((c', i') :: rest).map Prod.snd = i' :: rest.map Prod.snd from rfl]
            exact List.mem_cons_of_mem _ h')

lemma dinsert_snd_nodup (c : String) (i : Nat) :
    ∀ (ms : List (String × Nat)), (ms.map Prod.snd).Nodup → i ∉ ms.map Prod.snd →
      ((dinsert c i ms).map Prod.snd).Nodup := by
  intro ms
  induction ms with
  | nil =>
    intro _ _
    simp [dinsert]
  | cons p rest ih =>
    intro hnd hi
    obtain ⟨c', i'⟩ := p
    rw [show ((c', i') :: rest).map Prod.snd = i' :: rest.map Prod.snd from rfl,
      List.nodup_cons] at hnd
    rw [show ((c', i') :: rest).map Prod.snd = i' :: rest.map Prod.snd from rfl,
      List.mem_cons] at hi
    push_neg at hi
    rw [dinsert]
    by_cases hc : c' = c
    · rw [if_pos hc]
      rw [show ((c, i) :: rest).map Prod.snd = i :: rest.map Prod.snd from rfl,
        List.nodup_cons]
      exact ⟨hi.2, hnd.2⟩
    · rw [if_neg hc]
      rw [show ((c', i') :: dinsert c i rest).map Prod.snd =
        i' :: (dinsert c i rest).map Prod.snd from rfl, List.nodup_cons]
      refine ⟨?_, ih hnd.2 hi.2⟩
      intro h
      rcases dinsert_snd_subset c i rest i' h with h' | h'
      · exact hi.1 h'.symm
      · exact hnd.1 h'

/-- Folding dinserts over entries with pairwise distinct values keeps
both the keys and the values of the matches dict duplicate free. -/
lemma foldl_dinsert_nodup :
    ∀ (items acc : List (String × Nat)),
      ((items.map Prod.snd).Nodup) → (acc.map Prod.fst).Nodup →
      (acc.map Prod.snd).Nodup →
      (∀ i ∈ acc.map Prod.snd, i ∉ items.map Prod.snd) →
      ((items.foldl (fun ms p => dinsert p.1 p.2 ms) acc).map Prod.fst).Nodup ∧
      ((items.foldl (fun ms p => dinsert p.1 p.2 ms) acc).map Prod.snd).Nodup := by
  intro items
  induction items with
  | nil =>
    intro acc _ h1 h2 _
    exact ⟨h1, h2⟩
  | cons p rest ih =>
    intro acc hnd hk hv hdisj
    obtain ⟨c, i⟩ := p
    rw [show ((c, i) :: rest).map Prod.snd = i :: rest.map Prod.snd from rfl,
      List.nodup_cons] at hnd
    rw [List.foldl_cons]
    show (((rest.foldl (fun ms p => dinsert p.1 p.2 ms) (dinsert c i acc)).map
      Prod.fst).Nodup) ∧ _
    refine ih (dinsert c i acc) hnd.2 (dinsert_fst_nodup c i acc hk)
      (dinsert_snd_nodup c i acc hv ?_) ?_
    · intro h
      exact hdisj i h (by
        rw [show ((c, i) :: rest).map Prod.snd = i :: rest.map Prod.snd from rfl]
        exact List.mem_cons_self _ _)
    · intro j hj
      rcases dinsert_snd_subset c i acc j hj with h' | h'
      · exact h'.symm ▸ hnd.1
      · intro hmem
        exact hdisj j h' (by
          rw [show ((c, i) :: rest).map Prod.snd = i :: rest.map Prod.snd from rfl]
          exact List.mem_cons_of_mem _ hmem)

lemma applyAll_get? {M : List (Nat × Nat)} {cs : List String} {N : Nat} :
    ∀ (L : List Employee) (i0 k : Nat),
      (applyAll M cs N i0 L).get? k = (L.get? k).map (applyMatch M cs N (i0 + k)) := by
  intro L
  induction L with
  | nil =>
    intro i0 k
    simp [applyAll]
  | cons e rest ih =>
    intro i0 k
    cases k with
    | zero => rfl
    | succ k =>
      show (applyAll M cs N (i0 + 1) rest).get? k = _
      rw [ih (i0 + 1) k]
      rw [show i0 + 1 + k = i0 + (k + 1) from by omega]
      rfl

lemma applyAll_length {M : List (Nat × Nat)} {cs : List String} {N : Nat} :
    ∀ (L : List Employee) (i0 : Nat), (applyAll M cs N i0 L).length = L.length := by
  intro L
  induction L with
  | nil => intro i0; rfl
  | cons e rest ih =>
    intro i0
    show (applyAll M cs N (i0 + 1) rest).length + 1 = _
    rw [ih (i0 + 1)]
    rfl

lemma applyMatch_clear {M : List (Nat × Nat)} {cs : List String} {N i : Nat}
    (e : Employee) :
    (applyMatch M cs N i e).clear_assignment = e.clear_assignment := by
  rw [applyMatch]
  by_cases hav : e.available
  · rw [if_pos hav]
    cases matchedTo M i with
    | some v => rfl
    | none => rfl
  · rw [if_neg hav]

lemma applyAll_clear {M : List (Nat × Nat)} {cs : List String} {N : Nat} :
    ∀ (L : List Employee) (i0 : Nat),
      (applyAll M cs N i0 L).map Employee.clear_assignment =
        L.map Employee.clear_assignment := by
  intro L
  induction L with
  | nil => intro i0; rfl
  | cons e rest ih =>
    intro i0
    show (applyMatch M cs N i0 e).clear_assignment ::
      (applyAll M cs N (i0 + 1) rest).map Employee.clear_assignment = _
    rw [applyMatch_clear, ih (i0 + 1)]
    rfl

/-- Full characterisation of one run of match_customers: it always
returns a result; the result is the extraction of a matching state M
whose residual graph satisfies the flow invariant and admits no further
augmenting path (certified by a closed visited set V of the last bfs). -/
lemma match_customers_run (es : List Employee) (cs : List String) :
    ∃ (M : List (Nat × Nat)) (gF : Graph) (V : List Nat),
      match_customers es cs = some
        { employees := applyAll M cs es.length 1 (es.map Employee.clear_assignment)
          matchesMap := (hitsList M cs es.length 1
            (es.map Employee.clear_assignment)).foldl
              (fun acc p => dinsert p.1 p.2 acc) []
          unmatched := (hitsList M cs es.length 1
            (es.map Employee.clear_assignment)).foldl
              (fun acc p => if p.1 ∈ acc then acc.erase p.1 else acc) cs.dedup
          maxFlow := M.length
          graph := gF } ∧
      FlowInv (es.map Employee.clear_assignment) cs M gF ∧
      BfsClosed gF (es.length + cs.length + 1) V := by
  have hlen : (es.map Employee.clear_assignment).length = es.length :=
    List.length_map _ _
  have hInv0 := flowInv_init (es.map Employee.clear_assignment) cs
  obtain ⟨gF, MF, d, V, hloop, hInvF, hlenF, hV⟩ :=
    ffLoop_spec (es.length + 1) [] (g0Of (es.map Employee.clear_assignment) cs) 0
      hInv0 (by rw [hlen]; simp)
  have hd : MF.length = d := by simpa using hlenF
  have hloop' : ffLoop (es.length + cs.length + 1) (es.length + cs.length + 3)
      (es.length + cs.length + 3) (es.length + 1)
      (addSinkEdges (build_graph (es.map Employee.clear_assignment) cs)
        es.length cs.length) 0 = some (gF, d) := by
    have h1 : sinkOf (es.map Employee.clear_assignment) cs =
        es.length + cs.length + 1 := by
      rw [sinkOf, hlen]
    have h2 : g0Of (es.map Employee.clear_assignment) cs =
        addSinkEdges (build_graph (es.map Employee.clear_assignment) cs)
          es.length cs.length := by
      rw [g0Of, hlen]
    rw [h1, hlen, h2] at hloop
    rw [hloop]
    simp
  have hLhyp : ∀ (k : Nat) (e : Employee),
      (es.map Employee.clear_assignment).get? k = some e →
      (es.map Employee.clear_assignment).get? (1 + k - 1) = some e ∧
        e.assigned_customer = none := by
    intro k e hk
    rw [show 1 + k - 1 = k from by omega]
    refine ⟨hk, ?_⟩
    rw [List.get?_map] at hk
    cases he : es.get? k with
    | none => rw [he] at hk; simp at hk
    | some e0 =>
      rw [he] at hk
      simp only [Option.map_some', Option.some.injEq] at hk
      rw [← hk]
      rfl
  have hext := extractAll_spec hInvF
    (es.map Employee.clear_assignment) 1 [] cs.dedup (by omega) hLhyp
  rw [hlen] at hext
  refine ⟨MF, gF, V, ?_, hInvF, ?_⟩
  · show (match ffLoop (es.length + cs.length + 1) (es.length + cs.length + 3)
        (es.length + cs.length + 3) (es.length + 1)
        (addSinkEdges (build_graph (es.map Employee.clear_assignment) cs)
          es.length cs.length) 0 with
      | none => none
      | some (gF, flow) =>
        match extractAll gF cs es.length 1 (es.map Employee.clear_assignment)
            [] cs.dedup with
        | none => none
        | some (es', ms, um) => some (RunResult.mk es' ms um flow gF)) = _
    rw [hloop']
    show (match extractAll gF cs es.length 1 (es.map Employee.clear_assignment)
        [] cs.dedup with
      | none => none
      | some (es', ms, um) => some (RunResult.mk es' ms um d gF)) = _
    rw [hext]
    rw [hd]
  · have h1 : sinkOf (es.map Employee.clear_assignment) cs =
        es.length + cs.length + 1 := by
      rw [sinkOf, hlen]
    rw [← h1]
    exact hV

/-! ## Helpers for the claim theorems -/

/-- Reachability from the source in a residual graph: node 0 is
reachable, and every neighbour of a reachable node is.  An augmenting
path from source to sink exists exactly when the sink is reachable. -/
inductive PathTo (g : Graph) : Nat → Prop where
  | src : PathTo g 0
  | step {u v : Nat} : PathTo g u → v ∈ g u → PathTo g v

/-- Every node reachable from the source lies in a bfs-closed visited
set. -/
lemma pathTo_mem {g : Graph} {sink : Nat} {V : List Nat}
    (hV : BfsClosed g sink V) : ∀ {x : Nat}, PathTo g x → x ∈ V := by
  intro x hx
  induction hx with
  | src => exact hV.hz
  | step hu hw ih => exact hV.closed _ ih _ hw

/-- Reverse matching lookup: the employee node matched to a customer
node. -/
def matchedFrom (M : List (Nat × Nat)) (v : Nat) : Option Nat :=
  (M.find? (fun p => p.2 == v)).map Prod.fst

lemma matchedFrom_mem {M : List (Nat × Nat)} {v s : Nat}
    (h : matchedFrom M v = some s) : (s, v) ∈ M := by
  unfold matchedFrom at h
  cases hf : M.find? (fun p => p.2 == v) with
  | none => rw [hf] at h; simp at h
  | some p =>
    rw [hf] at h
    have hp1 := List.find?_some hf
    have hp2 := List.mem_of_find?_eq_some hf
    simp only [beq_iff_eq] at hp1
    obtain ⟨a, b⟩ := p
    simp only [Prod.snd] at hp1
    simp only [Option.map_some', Prod.fst, Option.some.injEq] at h
    subst hp1
    subst h
    exact hp2

lemma matchedFrom_isSome {M : List (Nat × Nat)} {v : Nat}
    (h : v ∈ M.map Prod.snd) : ∃ s, matchedFrom M v = some s := by
  rcases List.mem_map.mp h with ⟨p, hp, rfl⟩
  unfold matchedFrom
  cases hf : M.find? (fun q => q.2 == p.2) with
  | none =>
    exfalso
    have := List.find?_eq_none.mp hf p hp
    simp at this
  | some q => exact ⟨q.1, rfl⟩

/-- An available, unmatched employee node cannot lie outside a
bfs-closed visited set: the source edge to it survives. -/
lemma matched_of_not_mem_V {es : List Employee} {cs : List String}
    {M : List (Nat × Nat)} {g : Graph} {V : List Nat}
    (hInv : FlowInv es cs M g) (hV : BfsClosed g (sinkOf es cs) V)
    {s : Nat} (h1 : 1 ≤ s) (h2 : s ≤ es.length)
    (hav : availB es s = true) (hs : s ∉ V) : s ∈ M.map Prod.fst := by
  by_contra hnot
  have hsg : s ∈ g 0 := (hInv.srcMem s).mpr ⟨h1, h2, hav, hnot⟩
  exact hs (hV.closed 0 hV.hz s hsg)

/-- A customer node inside a bfs-closed visited set must be matched:
otherwise its sink edge survives and the sink would be visited. -/
lemma req_matched_of_mem_V {es : List Employee} {cs : List String}
    {M : List (Nat × Nat)} {g : Graph} {V : List Nat}
    (hInv : FlowInv es cs M g) (hV : BfsClosed g (sinkOf es cs) V)
    {v : Nat} (h1 : es.length + 1 ≤ v) (h2 : v ≤ es.length + cs.length)
    (hv : v ∈ V) : v ∈ M.map Prod.snd := by
  by_contra hnot
  have hsg : sinkOf es cs ∈ g v := (hInv.reqMem v h1 h2 _).mpr (Or.inl ⟨rfl, hnot⟩)
  exact hV.nsink (hV.closed v hv _ hsg)

/-- A matched customer node visible in a closed visited set pulls its
employee in through the reverse edge. -/
lemma fst_mem_V_of_snd {es : List Employee} {cs : List String}
    {M : List (Nat × Nat)} {g : Graph} {V : List Nat}
    (hInv : FlowInv es cs M g) (hV : BfsClosed g (sinkOf es cs) V)
    {s v : Nat} (hm : (s, v) ∈ M) (hv : v ∈ V) : s ∈ V := by
  have hw := hInv.wf (s, v) hm
  simp only [Prod.fst, Prod.snd] at hw
  have hsg : s ∈ g v := (hInv.reqMem v (by omega) (by omega) s).mpr (Or.inr hm)
  exact hV.closed v hv s hsg

/-- A matched employee node inside a closed visited set pulls its own
matched customer in: the only ways to reach a matched employee node are
through the reverse edge from its matched customer (the source edge to
it is consumed). -/
lemma snd_mem_V_of_fst {es : List Employee} {cs : List String}
    {M : List (Nat × Nat)} {g : Graph} {V : List Nat}
    (hInv : FlowInv es cs M g) (hV : BfsClosed g (sinkOf es cs) V)
    {s v : Nat} (hm : (s, v) ∈ M) (hs : s ∈ V) : v ∈ V := by
  have hw := hInv.wf (s, v) hm
  simp only [Prod.fst, Prod.snd] at hw
  rcases hV.origin s hs with h0 | ⟨u, huV, hsgu⟩
  · omega
  · by_cases hu0 : u = 0
    · exfalso
      subst hu0
      have := (hInv.srcMem s).mp hsgu
      exact this.2.2.2 (List.mem_map.mpr ⟨(s, v), hm, rfl⟩)
    · by_cases huN : u ≤ es.length
      · exfalso
        have := ((hInv.srvMem u (by omega) huN s).mp hsgu).2
        rcases this with ⟨h1, _⟩ | ⟨h1, _⟩ <;> omega
      · by_cases huM : u ≤ es.length + cs.length
        · have := (hInv.reqMem u (by omega) huM s).mp hsgu
          rcases this with ⟨hsk, _⟩ | hsum
          · exfalso
            simp only [sinkOf] at hsk
            omega
          · have hvu : v = u := fst_unique hInv.fstN hm hsum
            exact hvu ▸ huV
        · by_cases husk : u = sinkOf es cs
          · exfalso
            subst husk
            have := (hInv.snkMem s).mp hsgu
            rcases List.mem_map.mp this with ⟨q, hq, hq2⟩
            have := hInv.wf q hq
            omega
          · exfalso
            have hgt : sinkOf es cs < u := by
              simp only [sinkOf] at husk ⊢
              omega
            rw [hInv.outEmpty u hgt] at hsgu
            simp at hsgu

/-- Map a one-to-one pair of servers and customers to a pair of the
matching state M covering it: when the server is visited, its customer
must be visited and matched in M, so take M's pair at that customer;
otherwise the server itself is matched in M, so take M's pair at the
server. -/
def coverMap (M : List (Nat × Nat)) (V : List Nat) (p : Nat × Nat) : Nat × Nat :=
  if p.1 ∈ V then ((matchedFrom M p.2).getD 0, p.2)
  else (p.1, (matchedTo M p.1).getD 0)

lemma coverMap_spec {es : List Employee} {cs : List String}
    {M : List (Nat × Nat)} {g : Graph} {V : List Nat}
    (hInv : FlowInv es cs M g) (hV : BfsClosed g (sinkOf es cs) V)
    {p : Nat × Nat}
    (hp : 1 ≤ p.1 ∧ p.1 ≤ es.length ∧ es.length + 1 ≤ p.2 ∧
      p.2 ≤ es.length + cs.length ∧ availB es p.1 = true ∧
      eligB es cs p.1 p.2 = true) :
    coverMap M V p ∈ M ∧
    (if p.1 ∈ V then (coverMap M V p).2 = p.2 ∧ p.2 ∈ V
     else (coverMap M V p).1 = p.1) := by
  obtain ⟨s, v⟩ := p
  simp only [Prod.fst, Prod.snd] at hp
  by_cases hs : s ∈ V
  · have hvV : v ∈ V := by
      by_cases hm : (s, v) ∈ M
      · exact snd_mem_V_of_fst hInv hV hm hs
      · have hedge : v ∈ g s := by
          refine (hInv.srvMem s hp.1 hp.2.1 v).mpr ?_
          exact ⟨hp.2.2.2.2.1, Or.inl ⟨hp.2.2.1, hp.2.2.2.1, hp.2.2.2.2.2, hm⟩⟩
        exact hV.closed s hs v hedge
    have hvm : v ∈ M.map Prod.snd :=
      req_matched_of_mem_V hInv hV hp.2.2.1 hp.2.2.2.1 hvV
    obtain ⟨u, hu⟩ := matchedFrom_isSome hvm
    have humem : (u, v) ∈ M := matchedFrom_mem hu
    simp only [coverMap, Prod.fst, Prod.snd]
    rw [if_pos hs, if_pos hs, hu]
    exact ⟨by simpa using humem, rfl, hvV⟩
  · have hsm : s ∈ M.map Prod.fst :=
      matched_of_not_mem_V hInv hV hp.1 hp.2.1 hp.2.2.2.2.1 hs
    rcases List.mem_map.mp hsm with ⟨⟨a, w⟩, hq, ha⟩
    simp only [Prod.fst] at ha
    subst ha
    have hmt : matchedTo M a = some w := matchedTo_some hInv.fstN hq
    simp only [coverMap, Prod.fst, Prod.snd]
    rw [if_neg hs, if_neg hs, hmt]
    exact ⟨by simpa using hq, rfl⟩

/-- König-type bound: a one-to-one set of pairs that respects the
availability and eligibility of es never exceeds the size of a matching
state whose residual graph admits no augmenting path. -/
lemma valid_matching_le {es : List Employee} {cs : List String}
    {M : List (Nat × Nat)} {g : Graph} {V : List Nat}
    (hInv : FlowInv es cs M g) (hV : BfsClosed g (sinkOf es cs) V)
    (M' : List (Nat × Nat))
    (hwf : ∀ p ∈ M', 1 ≤ p.1 ∧ p.1 ≤ es.length ∧ es.length + 1 ≤ p.2 ∧
      p.2 ≤ es.length + cs.length ∧ availB es p.1 = true ∧
      eligB es cs p.1 p.2 = true)
    (hfst : (M'.map Prod.fst).Nodup) (hsnd : (M'.map Prod.snd).Nodup) :
    M'.length ≤ M.length := by
  have hmem : ∀ q ∈ M'.map (coverMap M V), q ∈ M := by
    intro q hq
    rcases List.mem_map.mp hq with ⟨p, hp, rfl⟩
    exact (coverMap_spec hInv hV (hwf p hp)).1
  have hnodup : (M'.map (coverMap M V)).Nodup := by
    refine List.Nodup.map_on ?_ hfst.of_map
    intro p hpmem q hqmem heq
    have hps := (coverMap_spec hInv hV (hwf p hpmem)).2
    have hqs := (coverMap_spec hInv hV (hwf q hqmem)).2
    by_cases hp1 : p.1 ∈ V <;> by_cases hq1 : q.1 ∈ V
    · rw [if_pos hp1] at hps
      rw [if_pos hq1] at hqs
      have h22 : p.2 = q.2 := by rw [← hps.1, heq, hqs.1]
      exact List.inj_on_of_nodup_map hsnd hpmem hqmem h22
    · exfalso
      rw [if_pos hp1] at hps
      rw [if_neg hq1] at hqs
      have hmemp := (coverMap_spec hInv hV (hwf p hpmem)).1
      have hpair : (q.1, p.2) ∈ M := by
        have h1 : (coverMap M V p).1 = q.1 := by rw [heq, hqs]
        have h2 : (coverMap M V p).2 = p.2 := hps.1
        rw [← h1, ← h2]
        simpa using hmemp
      exact hq1 (fst_mem_V_of_snd hInv hV hpair hps.2)
    · exfalso
      rw [if_neg hp1] at hps
      rw [if_pos hq1] at hqs
      have hmemq := (coverMap_spec hInv hV (hwf q hqmem)).1
      have hpair : (p.1, q.2) ∈ M := by
        have h1 : (coverMap M V q).1 = p.1 := by rw [← heq, hps]
        have h2 : (coverMap M V q).2 = q.2 := hqs.1
        rw [← h1, ← h2]
        simpa using hmemq
      exact hp1 (fst_mem_V_of_snd hInv hV hpair hqs.2)
    · rw [if_neg hp1] at hps
      rw [if_neg hq1] at hqs
      have h11 : p.1 = q.1 := by rw [← hps, heq, hqs]
      exact List.inj_on_of_nodup_map hfst hpmem hqmem h11
  have hle := (hnodup.subperm hmem).length_le
  simpa using hle

/-- With pairwise distinct customer names no dinsert overwrite fires, so
the matches dict holds exactly the written entries, in order. -/
lemma fold_matches_eq {es : List Employee} {cs : List String}
    {M : List (Nat × Nat)} {g : Graph} (hInv : FlowInv es cs M g)
    (hcs : cs.Nodup) :
    (hitsList M cs es.length 1 es).foldl (fun ms p => dinsert p.1 p.2 ms) [] =
      hitsList M cs es.length 1 es := by
  have h := foldl_dinsert_fresh (hitsList M cs es.length 1 es) []
    (hits_fst_nodup hInv hcs es 1) (by intro c _ hc; simp at hc)
  simpa using h

/-- Rows of the cleared copy of a list with one availability flag
lowered. -/
lemma clear_set_get? (es : List Employee) {k : Nat} {e : Employee}
    (hk : es.get? k = some e) (j : Nat) :
    ((es.set k { e with available := false }).map Employee.clear_assignment).get? j =
      if j = k then some { e.clear_assignment with available := false }
      else (es.map Employee.clear_assignment).get? j := by
  rw [List.get?_map, List.get?_map, List.get?_set]
  by_cases hj : k = j
  · subst hj
    rw [hk, if_pos rfl, if_pos rfl]
    rfl
  · rw [if_neg hj, if_neg (fun h => hj h.symm)]

/-- Lowering one availability flag only removes availability. -/
lemma availB_set_false {es : List Employee} {k : Nat} {e : Employee}
    (hk : es.get? k = some e) (s : Nat)
    (h : availB ((es.set k { e with available := false }).map
      Employee.clear_assignment) s = true) :
    availB (es.map Employee.clear_assignment) s = true := by
  unfold availB at h ⊢
  rw [clear_set_get? es hk] at h
  by_cases hj : s - 1 = k
  · rw [if_pos hj] at h
    simp at h
  · rw [if_neg hj] at h
    exact h

/-- Lowering one availability flag does not change eligibility. -/
lemma eligB_set_false {es : List Employee} {k : Nat} {e : Employee}
    (hk : es.get? k = some e) (cs : List String) (s v : Nat) :
    eligB ((es.set k { e with available := false }).map
        Employee.clear_assignment) cs s v =
      eligB (es.map Employee.clear_assignment) cs s v := by
  unfold eligB
  simp only [List.length_map, List.length_set]
  rw [clear_set_get? es hk]
  by_cases hj : s - 1 = k
  · rw [if_pos hj, hj, List.get?_map, hk]
    cases cs.get? (v - es.length - 1) <;> rfl
  · rw [if_neg hj]

/-- match_customers reads its employee list only through the cleared
copy. -/
lemma match_customers_congr {es1 es2 : List Employee} (cs : List String)
    (h : es1.map Employee.clear_assignment = es2.map Employee.clear_assignment) :
    match_customers es1 cs = match_customers es2 cs := by
  have hlen : es1.length = es2.length := by
    have := congrArg List.length h
    simpa using this
  unfold match_customers
  rw [h, hlen]

/-- Clearing assignments keeps the available count. -/
lemma clear_filter_available (es : List Employee) :
    ((es.map Employee.clear_assignment).filter Employee.available).length =
      (es.filter Employee.available).length := by
  induction es with
  | nil => rfl
  | cons e rest ih =>
    show (List.filter Employee.available
      (e.clear_assignment :: rest.map Employee.clear_assignment)).length = _
    rw [List.filter_cons, List.filter_cons]
    have hav : Employee.available e.clear_assignment = Employee.available e := rfl
    rw [hav]
    by_cases ha : e.available
    · rw [if_pos ha, if_pos ha]
      simpa using ih
    · rw [if_neg ha, if_neg ha]
      exact ih

/-! ## Claim theorems -/

/-- C3: for every input, in the matches mapping returned by
match_customers each employee appears as a value at most once and each
customer appears as a key at most once: the extracted matching is
one-to-one. -/
theorem claim_C3 (es : List Employee) (cs : List String) :
    ∃ r, match_customers es cs = some r ∧
      (r.matchesMap.map Prod.fst).Nodup ∧ (r.matchesMap.map Prod.snd).Nodup := by
  obtain ⟨M, gF, V, hrun, hInv, hV⟩ := match_customers_run es cs
  refine ⟨_, hrun, ?_⟩
  have h := foldl_dinsert_nodup
    (hitsList M cs es.length 1 (es.map Employee.clear_assignment)) []
    (hits_snd_nodup _ _) (by simp) (by simp) (by simp)
  exact h

/-- C4 (amended): can_serve holds iff the customer is allowed and the
employee is unassigned; the availability flag is not consulted, contrary
to the specified eligibility predicate (see the counterexample). -/
theorem claim_C4 (e : Employee) (c : String) :
    e.can_serve c = true ↔ (c ∈ e.allowed_customers ∧ e.assigned_customer = none) := by
  simp [Employee.can_serve]

/-- C4 counterexample: an unavailable employee with the customer in its
allowed list and no assignment still satisfies can_serve, so can_serve
is not the conjunction with availability that the spec states. -/
theorem claim_C4_cex :
    (Employee.mk "Bob" false ["A"] none).can_serve "A" = true ∧
    (Employee.mk "Bob" false ["A"] none).available = false :=
  ⟨rfl, rfl⟩

/-- C5 (amended): in the built graph a source-to-employee edge is
present iff the employee is available, and an employee-to-customer edge
is present iff the employee is available AND the customer is in its
allowed list: availability guards both edge classes, not only the
source edges as the spec states (see the counterexample). -/
theorem claim_C5 (es : List Employee) (cs : List String) :
    (∀ s, s ∈ build_graph es cs 0 ↔
      1 ≤ s ∧ s ≤ es.length ∧ availB es s = true) ∧
    (∀ s v, 1 ≤ s → s ≤ es.length →
      (v ∈ build_graph es cs s ↔
        availB es s = true ∧ es.length + 1 ≤ v ∧ v ≤ es.length + cs.length ∧
          eligB es cs s v = true)) := by
  constructor
  · intro s
    have h0 : build_graph es cs 0 = g0Of es cs 0 := by
      simp only [g0Of, addSinkEdges]
      rw [if_neg (by omega)]
    rw [h0, g0_src]
  · intro s v h1 h2
    have hrow : build_graph es cs s = g0Of es cs s := by
      simp only [g0Of, addSinkEdges]
      rw [if_neg (by omega)]
    rw [hrow, g0_srv es cs s h1 h2]

/-- C5 counterexample: an unavailable employee whose allowed list
contains the only customer gets no edge to that customer's node, though
the spec requires the employee-to-customer edge whenever the identifier
is in the eligible set, with no further condition. -/
theorem claim_C5_cex :
    "A" ∈ (Employee.mk "Bob" false ["A"] none).allowed_customers ∧
    2 ∉ build_graph [Employee.mk "Bob" false ["A"] none] ["A"] 1 := by
  constructor
  · decide
  · decide

/-- C6 (amended): match_customers is total: it returns a result for
every input, duplicates included, every bfs and residual update
succeeding and every removed edge being present.  There is no
DuplicateIdentifier check anywhere (see the counterexample). -/
theorem claim_C6 (es : List Employee) (cs : List String) :
    ∃ r, match_customers es cs = some r := by
  obtain ⟨M, gF, V, hrun, _, _⟩ := match_customers_run es cs
  exact ⟨_, hrun⟩

/-- C6 counterexample: an input with a duplicated customer identifier is
accepted and produces a normal result instead of the DuplicateIdentifier
rejection the spec claims. -/
theorem claim_C6_cex :
    (match_customers [Employee.mk "E" true ["C"] none] ["C", "C"]).isSome = true := by
  rfl

/-- C8: repeated runs are deterministic and state independent: the run
leaves the matcher in a state from which an identical second run
produces the identical full result, because match_customers reads its
employees only through the cleared copy. -/
theorem claim_C8 (es : List Employee) (cs : List String) :
    ∃ r, match_customers es cs = some r ∧ match_customers r.employees cs = some r := by
  obtain ⟨M, gF, V, hrun, hInv, hV⟩ := match_customers_run es cs
  refine ⟨_, hrun, ?_⟩
  have hclear : (applyAll M cs es.length 1 (es.map Employee.clear_assignment)).map
      Employee.clear_assignment = es.map Employee.clear_assignment := by
    rw [applyAll_clear, List.map_map]
    exact List.map_congr_left (fun a _ => rfl)
  have hcongr := match_customers_congr cs hclear
  dsimp only
  rw [hcongr, hrun]

/-- C9: the search/augment loop terminates on every input with at most
one augmentation per employee: the accumulated max_flow stays below the
number of employees, and together with the surviving source edges it
accounts exactly for the available employees (each augmentation consumes
one source edge for good). -/
theorem claim_C9 (es : List Employee) (cs : List String) :
    ∃ r, match_customers es cs = some r ∧ r.maxFlow ≤ es.length ∧
      (r.graph 0).length + r.maxFlow = (es.filter Employee.available).length := by
  obtain ⟨M, gF, V, hrun, hInv, hV⟩ := match_customers_run es cs
  refine ⟨_, hrun, ?_, ?_⟩
  · show M.length ≤ es.length
    have := flowInv_length_le _ _ _ _ hInv
    simpa using this
  · show (gF 0).length + M.length = (es.filter Employee.available).length
    have hsrc := hInv.srcLen
    rw [clear_filter_available] at hsrc
    exact hsrc

/-- C2: conservation: after a run, the summary's successful_matches
equals the number of entries of the matches mapping and equals the
accumulated max_flow.  Customer identifiers are unique within a run, as
the data model requires. -/
theorem claim_C2 (es : List Employee) (cs : List String) (hcs : cs.Nodup) :
    ∃ r, match_customers es cs = some r ∧
      (get_matching_summary r.employees r.matchesMap r.unmatched).successful_matches =
        (get_matching_summary r.employees r.matchesMap r.unmatched).matchesNames.length ∧
      (get_matching_summary r.employees r.matchesMap r.unmatched).successful_matches =
        r.maxFlow := by
  obtain ⟨M, gF, V, hrun, hInv, hV⟩ := match_customers_run es cs
  have hlen : (es.map Employee.clear_assignment).length = es.length :=
    List.length_map _ _
  have hfold := fold_matches_eq hInv hcs
  rw [hlen] at hfold
  have hlenM := hits_length hInv
  rw [hlen] at hlenM
  refine ⟨_, hrun, ?_, ?_⟩
  · simp [get_matching_summary]
  · show ((hitsList M cs es.length 1 (es.map Employee.clear_assignment)).foldl
      (fun acc p => dinsert p.1 p.2 acc) []).length = M.length
    rw [hfold, hlenM]

/-- C2 witness at a one-employee, one-customer input. -/
theorem claim_C2_witness :
    (["c"] : List String).Nodup ∧
    (∃ r, match_customers [Employee.mk "A" true ["c"] none] ["c"] = some r ∧
      (get_matching_summary r.employees r.matchesMap r.unmatched).successful_matches =
        (get_matching_summary r.employees r.matchesMap r.unmatched).matchesNames.length ∧
      (get_matching_summary r.employees r.matchesMap r.unmatched).successful_matches =
        r.maxFlow) :=
  ⟨by decide, claim_C2 [Employee.mk "A" true ["c"] none] ["c"] (by decide)⟩

/-- C10: after a run the matches mapping and the per-employee assignment
fields agree: every matches entry points at an employee whose
assigned_customer is exactly that customer, and every employee holding
an assignment appears in matches at exactly that customer's entry.
Customer identifiers are unique within a run, as the data model
requires. -/
theorem claim_C10 (es : List Employee) (cs : List String) (hcs : cs.Nodup) :
    ∃ r, match_customers es cs = some r ∧
      (∀ p ∈ r.matchesMap, ∃ e, r.employees.get? (p.2 - 1) = some e ∧
        e.assigned_customer = some p.1) ∧
      (∀ k e, r.employees.get? k = some e → ∀ c, e.assigned_customer = some c →
        (c, k + 1) ∈ r.matchesMap) := by
  obtain ⟨M, gF, V, hrun, hInv, hV⟩ := match_customers_run es cs
  have hlen : (es.map Employee.clear_assignment).length = es.length :=
    List.length_map _ _
  have hfold := fold_matches_eq hInv hcs
  rw [hlen] at hfold
  refine ⟨_, hrun, ?_, ?_⟩
  · dsimp only
    rw [hfold]
    intro p hp
    obtain ⟨v, hm, hname, h1, h2⟩ := hits_forward _ 1 p.1 p.2 (by simpa using hp)
    rw [applyAll_get?]
    have hidx : 1 + (p.2 - 1) = p.2 := by omega
    rw [hidx]
    have hw := hInv.wf (p.2, v) hm
    simp only [Prod.fst, Prod.snd] at hw
    cases he0 : (es.map Employee.clear_assignment).get? (p.2 - 1) with
    | none =>
      exfalso
      have := List.get?_eq_none.mp he0
      omega
    | some e0 =>
      refine ⟨_, rfl, ?_⟩
      have hav : e0.available = true := by
        have h5 := hw.2.2.2.2.1
        rwa [availB_eq _ _ e0 he0] at h5
      have hmt : matchedTo M p.2 = some v := matchedTo_some hInv.fstN hm
      rw [applyMatch, if_pos hav, hmt]
      show some (nameOfNode cs es.length v) = some p.1
      rw [hname]
  · dsimp only
    rw [hfold]
    intro k e hke c hc
    rw [applyAll_get?] at hke
    cases he0 : (es.map Employee.clear_assignment).get? k with
    | none => rw [he0] at hke; simp at hke
    | some e0 =>
      rw [he0] at hke
      simp only [Option.map_some', Option.some.injEq] at hke
      subst hke
      have he0n : e0.assigned_customer = none := by
        rw [List.get?_map] at he0
        cases hes : es.get? k with
        | none => rw [hes] at he0; simp at he0
        | some e1 =>
          rw [hes] at he0
          simp only [Option.map_some', Option.some.injEq] at he0
          rw [← he0]
          rfl
      rw [applyMatch] at hc
      by_cases hav : e0.available
      · rw [if_pos hav] at hc
        cases hmt : matchedTo M (1 + k) with
        | none =>
          exfalso
          rw [hmt, he0n] at hc
          simp at hc
        | some v =>
          rw [hmt] at hc
          have hcv : c = nameOfNode cs es.length v := by
            have hsome : some (nameOfNode cs es.length v) = some c := hc
            simpa using hsome.symm
          have hmem : (1 + k, v) ∈ M := matchedTo_mem hmt
          have hw := hInv.wf (1 + k, v) hmem
          simp only [Prod.fst, Prod.snd] at hw
          have hhit := hits_complete hInv (es.map Employee.clear_assignment) 1
            (by intro k' e' hk'; rwa [show 1 + k' - 1 = k' from by omega]) le_rfl
            (1 + k) v hmem (by omega) (by omega)
          rw [hlen] at hhit
          rw [hcv, show k + 1 = 1 + k from by omega]
          exact hhit
      · exfalso
        rw [if_neg hav, he0n] at hc
        simp at hc

/-- C10 witness at a one-employee, one-customer input. -/
theorem claim_C10_witness :
    (["d"] : List String).Nodup ∧
    (∃ r, match_customers [Employee.mk "B" true ["d"] none] ["d"] = some r ∧
      (∀ p ∈ r.matchesMap, ∃ e, r.employees.get? (p.2 - 1) = some e ∧
        e.assigned_customer = some p.1) ∧
      (∀ k e, r.employees.get? k = some e → ∀ c, e.assigned_customer = some c →
        (c, k + 1) ∈ r.matchesMap)) :=
  ⟨by decide, claim_C10 [Employee.mk "B" true ["d"] none] ["d"] (by decide)⟩

/-- C1: maximality: when match_customers terminates, no augmenting path
from the source to the sink exists in the final residual graph, and
equivalently no customer left unmatched has an available employee that
allows it and holds no assignment. -/
theorem claim_C1 (es : List Employee) (cs : List String) :
    ∃ r, match_customers es cs = some r ∧
      ¬ PathTo r.graph (es.length + cs.length + 1) ∧
      ∀ c ∈ r.unmatched, ∀ e ∈ r.employees,
        ¬ (e.available = true ∧ c ∈ e.allowed_customers ∧
           e.assigned_customer = none) := by
  obtain ⟨M, gF, V, hrun, hInv, hV⟩ := match_customers_run es cs
  have hlen : (es.map Employee.clear_assignment).length = es.length :=
    List.length_map _ _
  have hnopath : ¬ PathTo gF (es.length + cs.length + 1) :=
    fun hp => hV.nsink (pathTo_mem hV hp)
  refine ⟨_, hrun, hnopath, ?_⟩
  dsimp only
  intro c hc e he hbad
  obtain ⟨hav, hallow, hassign⟩ := hbad
  rcases List.mem_iff_get?.mp he with ⟨k, hk⟩
  rw [applyAll_get?] at hk
  cases he0 : (es.map Employee.clear_assignment).get? k with
  | none => rw [he0] at hk; simp at hk
  | some e0 =>
    rw [he0] at hk
    simp only [Option.map_some', Option.some.injEq] at hk
    subst hk
    rw [applyMatch] at hav hallow hassign
    by_cases hae : e0.available
    · rw [if_pos hae] at hav hallow hassign
      cases hmt : matchedTo M (1 + k) with
      | some v =>
        rw [hmt] at hassign
        have hX : some (nameOfNode cs es.length v) = (none : Option String) := hassign
        exact Option.noConfusion hX
      | none =>
        rw [hmt] at hallow
        have hallow' : c ∈ e0.allowed_customers := hallow
        rw [Nat.add_comm] at hmt
        have hklt : k < es.length := by
          rcases List.get?_eq_some.mp he0 with ⟨hh, _⟩
          omega
        have hnotfst : (k + 1) ∉ M.map Prod.fst := by
          intro hmem
          rcases List.mem_map.mp hmem with ⟨⟨a, w⟩, hq, ha⟩
          simp only [Prod.fst] at ha
          subst ha
          rw [matchedTo_some hInv.fstN hq] at hmt
          simp at hmt
        have havB : availB (es.map Employee.clear_assignment) (k + 1) = true := by
          rw [availB_eq _ _ e0 he0]
          exact hae
        obtain ⟨hnd, hsub, hnohit⟩ := foldl_erase_spec
          (hitsList M cs es.length 1 (es.map Employee.clear_assignment)) cs.dedup
          (List.nodup_dedup cs)
        have hccs : c ∈ cs := List.mem_dedup.mp (hsub c hc)
        rcases List.mem_iff_get?.mp hccs with ⟨j, hj⟩
        have hjlt : j < cs.length := by
          rcases List.get?_eq_some.mp hj with ⟨hh, _⟩
          exact hh
        have hname : nameOfNode cs es.length (es.length + 1 + j) = c := by
          unfold nameOfNode
          rw [show es.length + 1 + j - es.length - 1 = j from by omega, hj]
          rfl
        have hnotsnd : (es.length + 1 + j) ∉ M.map Prod.snd := by
          intro hmem
          rcases List.mem_map.mp hmem with ⟨⟨a, b⟩, hq, hb⟩
          simp only [Prod.snd] at hb
          subst hb
          have hwq := hInv.wf _ hq
          simp only [Prod.fst, Prod.snd] at hwq
          have hhit := hits_complete hInv (es.map Employee.clear_assignment) 1
            (by intro k' e' hk'; rwa [show 1 + k' - 1 = k' from by omega]) le_rfl
            a (es.length + 1 + j) hq (by omega) (by omega)
          rw [hlen] at hhit
          rw [hname] at hhit
          exact hnohit (c, a) hhit hc
        have hcget : cs.get?
            (es.length + 1 + j - (es.map Employee.clear_assignment).length - 1) =
            some c := by
          rw [hlen, show es.length + 1 + j - es.length - 1 = j from by omega]
          exact hj
        have helig : eligB (es.map Employee.clear_assignment) cs (k + 1)
            (es.length + 1 + j) = true := by
          rw [eligB_eq _ cs (k + 1) _ e0 c he0 hcget]
          simpa using hallow'
        have hedge0 : (k + 1) ∈ gF 0 := (hInv.srcMem (k + 1)).mpr
          ⟨by omega, by omega, havB, hnotfst⟩
        have hnotpair : (k + 1, es.length + 1 + j) ∉ M := fun hmem =>
          hnotfst (List.mem_map.mpr ⟨_, hmem, rfl⟩)
        have hedge1 : (es.length + 1 + j) ∈ gF (k + 1) :=
          (hInv.srvMem (k + 1) (by omega) (by omega) _).mpr
            ⟨havB, Or.inl ⟨by omega, by omega, helig, hnotpair⟩⟩
        have hsinkeq : es.length + cs.length + 1 =
            sinkOf (es.map Employee.clear_assignment) cs := by
          rw [sinkOf, hlen]
        have hedge2 : (es.length + cs.length + 1) ∈ gF (es.length + 1 + j) :=
          (hInv.reqMem (es.length + 1 + j) (by omega) (by omega) _).mpr
            (Or.inl ⟨hsinkeq, hnotsnd⟩)
        exact hnopath (PathTo.step (PathTo.step (PathTo.step PathTo.src hedge0)
          hedge1) hedge2)
    · rw [if_neg hae] at hav
      exact hae hav

/-- C7: monotonic degradation: lowering one employee's availability
flag, all else fixed, never increases successful_matches of a
subsequent run: the degraded run's matching also respects the original
availability, and no one-to-one eligible pair set can beat a matching
whose residual graph has no augmenting path.  Customer identifiers are
unique within a run, as the data model requires. -/
theorem claim_C7 (es : List Employee) (cs : List String) (k : Nat) (e : Employee)
    (hcs : cs.Nodup) (hk : es.get? k = some e) :
    ∃ r r', match_customers es cs = some r ∧
      match_customers (es.set k { e with available := false }) cs = some r' ∧
      (get_matching_summary r'.employees r'.matchesMap r'.unmatched).successful_matches ≤
        (get_matching_summary r.employees r.matchesMap r.unmatched).successful_matches := by
  obtain ⟨M, gF, V, hrun, hInv, hV⟩ := match_customers_run es cs
  obtain ⟨M', gF', V', hrun', hInv', hV'⟩ :=
    match_customers_run (es.set k { e with available := false }) cs
  have hlen : (es.map Employee.clear_assignment).length = es.length :=
    List.length_map _ _
  have hlen' : ((es.set k { e with available := false }).map
      Employee.clear_assignment).length = es.length := by simp
  have hfold := fold_matches_eq hInv hcs
  rw [hlen] at hfold
  have hfold' := fold_matches_eq hInv' hcs
  rw [hlen'] at hfold'
  have hlenM := hits_length hInv
  rw [hlen] at hlenM
  have hlenM' := hits_length hInv'
  rw [hlen'] at hlenM'
  have hsinkV : BfsClosed gF (sinkOf (es.map Employee.clear_assignment) cs) V := by
    rw [sinkOf, hlen]
    exact hV
  have hwf' : ∀ p ∈ M', 1 ≤ p.1 ∧
      p.1 ≤ (es.map Employee.clear_assignment).length ∧
      (es.map Employee.clear_assignment).length + 1 ≤ p.2 ∧
      p.2 ≤ (es.map Employee.clear_assignment).length + cs.length ∧
      availB (es.map Employee.clear_assignment) p.1 = true ∧
      eligB (es.map Employee.clear_assignment) cs p.1 p.2 = true := by
    intro p hp
    have hw := hInv'.wf p hp
    rw [hlen'] at hw
    refine ⟨hw.1, by omega, by omega, by omega, ?_, ?_⟩
    · exact availB_set_false hk p.1 hw.2.2.2.2.1
    · rw [← eligB_set_false hk cs p.1 p.2]
      exact hw.2.2.2.2.2
  have hle := valid_matching_le hInv hsinkV M' hwf' hInv'.fstN hInv'.sndN
  refine ⟨_, _, hrun, hrun', ?_⟩
  simp only [get_matching_summary]
  simp only [List.length_set]
  rw [hfold', hfold, hlenM', hlenM]
  exact hle

/-- C7 witness: one employee, one customer, the employee made
unavailable. -/
theorem claim_C7_witness :
    (["c"] : List String).Nodup ∧
    [Employee.mk "A" true ["c"] none].get? 0 =
      some (Employee.mk "A" true ["c"] none) ∧
    (∃ r r', match_customers [Employee.mk "A" true ["c"] none] ["c"] = some r ∧
      match_customers ([Employee.mk "A" true ["c"] none].set 0
        { Employee.mk "A" true ["c"] none with available := false }) ["c"] = some r' ∧
      (get_matching_summary r'.employees r'.matchesMap r'.unmatched).successful_matches ≤
        (get_matching_summary r.employees r.matchesMap r.unmatched).successful_matches) :=
  ⟨by decide, rfl, claim_C7 [Employee.mk "A" true ["c"] none] ["c"] 0
    (Employee.mk "A" true ["c"] none) (by decide) rfl⟩
